import Mathlib

/-
Verification of the state-belief engine of the torch-kalman repository.

The embedding follows the source files:
  torch_kalman/state_belief/base.py         (StateBelief)
  torch_kalman/state_belief/over_time.py    (StateBeliefOverTime)
  torch_kalman/state_belief/families/censored_gaussian/censored_gaussian.py

Tensors are embedded as functions out of Fin-indexed types with rational
entries; floating-point special values (NaN, +-Inf) that the code tests for
with torch.isnan / torch.isinf are embedded by the explicit value type FVal.
Tensor indexing by a slice such as obs[:, t, :] and indexing by the complete
index list select the same subtensor, so selectors are embedded semantically
as index lists, with slice(None) embedded as List.finRange.

The file is laid out as definitions first, then theorems.
-/

namespace TorchKalman

/-- Embedding of a floating-point scalar as used by the code: an ordinary
(rational) number, not-a-number, or a signed infinity. -/
inductive FVal where
  | num : ℚ → FVal
  | nan : FVal
  | pinf : FVal
  | ninf : FVal
deriving DecidableEq, Repr

/-- Embedding of torch.isnan on one scalar. -/
def FVal.isNan : FVal → Bool
  | .nan => true
  | _ => false

/-- Embedding of torch.isinf on one scalar. -/
def FVal.isInf : FVal → Bool
  | .pinf => true
  | .ninf => true
  | _ => false

/-- Embedding of StateBelief (base.py): per-group means (group x state-dim),
covariances (group x state-dim x state-dim), per-group integer count
last_measured, and the optional measurement matrices H (group x measure-dim x
state-dim) and R (group x measure-dim x measure-dim), which the constructor
initializes to none. -/
structure StateBelief (G n M : ℕ) where
  means : Fin G → Fin n → ℚ
  covs : Fin G → Matrix (Fin n) (Fin n) ℚ
  lastMeasured : Fin G → ℤ
  hH : Option (Fin G → Matrix (Fin M) (Fin n) ℚ)
  hR : Option (Fin G → Matrix (Fin M) (Fin M) ℚ)

variable {G n M : ℕ}

/-- Embedding of the StateBelief constructor with last_measured omitted:
means and covs are stored, last_measured defaults to zeros, and the private
measurement slots start out unset. -/
def StateBelief.init (means : Fin G → Fin n → ℚ) (covs : Fin G → Matrix (Fin n) (Fin n) ℚ) :
    StateBelief G n M :=
  { means := means, covs := covs, lastMeasured := fun _ => 0, hH := none, hR := none }

/-- Embedding of the batched torch.matmul on two stacks of square matrices,
written entrywise exactly as batched matrix multiplication computes it. -/
def tmatmul (A B : Matrix (Fin n) (Fin n) ℚ) : Matrix (Fin n) (Fin n) ℚ :=
  fun i j => ∑ k, A i k * B k j

/-- Embedding of StateBelief.predict (base.py lines 75-79): Ft is
F.permute(0,2,1); the new means are F.matmul(means.unsqueeze(2)).squeeze(2);
the new covs are F.matmul(covs).matmul(Ft) + Q; last_measured is incremented;
the result is a fresh belief (so its measurement slots are unset). -/
def StateBelief.predict (sb : StateBelief G n M)
    (F Q : Fin G → Matrix (Fin n) (Fin n) ℚ) : StateBelief G n M :=
  let Ft : Fin G → Matrix (Fin n) (Fin n) ℚ := fun g => fun i j => F g j i
  { means := fun g i => ∑ k, F g i k * sb.means g k
    covs := fun g => fun i j => tmatmul (tmatmul (F g) (sb.covs g)) (Ft g) i j + Q g i j
    lastMeasured := fun g => sb.lastMeasured g + 1
    hH := none
    hR := none }

/-- Errors raised by the StateBelief / StateBeliefOverTime methods of base.py
and over_time.py: UnmeasuredError, the re-compute RuntimeError, and the
ValueError of state_belief_for_time for a wrong time_idx length. -/
inductive SBErr where
  | unmeasured
  | recompute
  | lenMismatch
deriving DecidableEq, Repr

/-- Embedding of StateBelief.compute_measurement (base.py lines 53-61): if the
H slot is already set and overwrite is not requested, a RuntimeError is
raised; otherwise both slots are (re)set and the belief is returned. -/
def StateBelief.computeMeasurement (sb : StateBelief G n M)
    (H : Fin G → Matrix (Fin M) (Fin n) ℚ) (R : Fin G → Matrix (Fin M) (Fin M) ℚ)
    (overwrite : Bool) : Except SBErr (StateBelief G n M) :=
  if sb.hH.isSome ∧ overwrite = false then .error .recompute
  else .ok { sb with hH := some H, hR := some R }

/-- Embedding of the H property (base.py lines 63-67): raises UnmeasuredError
while the slot is unset. -/
def StateBelief.getH (sb : StateBelief G n M) :
    Except SBErr (Fin G → Matrix (Fin M) (Fin n) ℚ) :=
  match sb.hH with
  | none => .error .unmeasured
  | some H => .ok H

/-- Embedding of the R property (base.py lines 69-73). -/
def StateBelief.getR (sb : StateBelief G n M) :
    Except SBErr (Fin G → Matrix (Fin M) (Fin M) ℚ) :=
  match sb.hR with
  | none => .error .unmeasured
  | some R => .ok R

/-- Inflation of the covariance diagonal used by _realize (base.py line 193):
self.covs[:, range(rank), range(rank)] += 1e-09. -/
def inflateDiag (covs : Fin G → Matrix (Fin n) (Fin n) ℚ) :
    Fin G → Matrix (Fin n) (Fin n) ℚ :=
  fun g i j => if i = j then covs g i j + 1 / 1000000000 else covs g i j

/-- The belief as _realize sees it after k failed attempts: the covariance
diagonal has been inflated k times, everything else untouched. -/
def inflateIter (sb : StateBelief G n M) : ℕ → StateBelief G n M
  | 0 => sb
  | k + 1 => { inflateIter sb k with covs := inflateDiag (inflateIter sb k).covs }

/-- Loop body of _realize (base.py lines 186-201), with the sampling routine
(the family-specific sample_transition reading the belief) abstracted as a
parameter that either returns sampled means or fails with a decomposition
error. The last error seen is carried so that it can be re-raised; on success
the means are overwritten with the sample and the covariance is zeroed. -/
def realizeLoop {ε : Type} (sampler : StateBelief G n M → Except ε (Fin G → Fin n → ℚ)) :
    ℕ → StateBelief G n M → Option ε → Option (Except ε (StateBelief G n M))
  | 0, _, none => none
  | 0, _, some e => some (.error e)
  | k + 1, sb, _ =>
    match sampler sb with
    | .ok m => some (.ok { sb with means := m, covs := fun _ => 0 })
    | .error e => realizeLoop sampler k { sb with covs := inflateDiag sb.covs } (some e)

/-- Embedding of StateBelief._realize (base.py lines 178-201). The in-place
mutation is embedded by returning the final belief; the none result encodes
the assert ntry greater-or-equal one (no attempt possible, no error to
re-raise). -/
def StateBelief.realize {ε : Type} (sb : StateBelief G n M)
    (sampler : StateBelief G n M → Except ε (Fin G → Fin n → ℚ)) (ntry : ℕ) :
    Option (Except ε (StateBelief G n M)) :=
  realizeLoop sampler ntry sb none

/-- True of a group whose observation row is entirely missing (all NaN). -/
def rowAllNan (obs : Fin G → Fin M → FVal) (g : Fin G) : Prop :=
  ∀ mm, (obs g mm).isNan = true

/-- True of a group whose observation row has no missing entry. -/
def rowNoNan (obs : Fin G → Fin M → FVal) (g : Fin G) : Prop :=
  ∀ mm, (obs g mm).isNan = false

/-- Embedding of `not is_nan.any()` over the whole observation batch. -/
def noNanObs (obs : Fin G → Fin M → FVal) : Prop :=
  ∀ g mm, (obs g mm).isNan = false

/-- Embedding of torch.isinf(obs).any(). -/
def hasInfObs (obs : Fin G → Fin M → FVal) : Prop :=
  ∃ g mm, (obs g mm).isInf = true

instance (obs : Fin G → Fin M → FVal) (g : Fin G) : Decidable (rowAllNan obs g) :=
  Fintype.decidableForallFintype

instance (obs : Fin G → Fin M → FVal) (g : Fin G) : Decidable (rowNoNan obs g) :=
  Fintype.decidableForallFintype

instance (obs : Fin G → Fin M → FVal) : Decidable (noNanObs obs) :=
  Fintype.decidableForallFintype

instance (obs : Fin G → Fin M → FVal) : Decidable (hasInfObs obs) :=
  Fintype.decidableExistsFintype

/-- The valid (non-missing) measurement dimensions of one group's row, in
index order: the which_valid selector of base.py line 103. -/
def whichValid (obs : Fin G → Fin M → FVal) (g : Fin G) : List (Fin M) :=
  (List.finRange M).filter (fun mm => !(obs g mm).isNan)

/-- Family-specific per-bucket update routine (_update_group), abstracted as a
parameter: given the semantic valid-dimension selector and a group index, it
produces that group's new mean row and covariance block (as floating values,
since the real routine can produce NaN or Inf). Both families have this shape;
the CensoredGaussian variant is in censored_gaussian.py lines 35-90, the
Gaussian one lives in the families package. The selector embeds slice(None) as
the full index list, since both select the same submatrices. -/
def UpdateGroupFn (G n M : ℕ) :=
  List (Fin M) → Fin G → (Fin n → FVal) × (Fin n → Fin n → FVal)

/-- Per-group result of the bucketed update of base.py lines 89-120: with no
NaN anywhere every group is updated with the full slice; otherwise all-NaN
groups keep their cloned mean and covariance, NaN-free groups are updated with
the full slice, and the remaining groups are updated with their
missingness-signature selector. -/
def updRow (ug : UpdateGroupFn G n M) (sb : StateBelief G n M)
    (obs : Fin G → Fin M → FVal) (g : Fin G) :
    (Fin n → FVal) × (Fin n → Fin n → FVal) :=
  if noNanObs obs then ug (List.finRange M) g
  else if rowAllNan obs g then
    (fun i => .num (sb.means g i), fun i j => .num (sb.covs g i j))
  else if rowNoNan obs g then ug (List.finRange M) g
  else ug (whichValid obs g) g

/-- The means_new tensor computed by update before its final checks. -/
def updMeans (ug : UpdateGroupFn G n M) (sb : StateBelief G n M)
    (obs : Fin G → Fin M → FVal) : Fin G → Fin n → FVal :=
  fun g => (updRow ug sb obs g).1

/-- The covs_new tensor computed by update. -/
def updCovs (ug : UpdateGroupFn G n M) (sb : StateBelief G n M)
    (obs : Fin G → Fin M → FVal) : Fin G → Fin n → Fin n → FVal :=
  fun g => (updRow ug sb obs g).2

/-- Embedding of StateBelief._update_last_measured (base.py lines 131-135):
groups with at least one non-missing dimension are reset to zero, the rest
keep their value. -/
def updLastMeasured (sb : StateBelief G n M) (obs : Fin G → Fin M → FVal) :
    Fin G → ℤ :=
  fun g => if ∃ mm, (obs g mm).isNan = false then 0 else sb.lastMeasured g

/-- Errors raised by StateBelief.update (base.py lines 122-126). -/
inductive UpdErr where
  | infObs
  | nanMeans
deriving DecidableEq, Repr

/-- The fields of the belief that update constructs on success. -/
structure UpdResult (G n : ℕ) where
  means : Fin G → Fin n → FVal
  covs : Fin G → Fin n → Fin n → FVal
  lastMeasured : Fin G → ℤ

/-- Embedding of StateBelief.update (base.py lines 81-129) without the time
selector: the bucketed per-group updates, then the fatal checks (Infs in obs,
NaNs in the new means), then the last_measured refresh. -/
def StateBelief.update (sb : StateBelief G n M) (ug : UpdateGroupFn G n M)
    (obs : Fin G → Fin M → FVal) : Except UpdErr (UpdResult G n) :=
  if hasInfObs obs then .error .infObs
  else if ∃ g i, (updMeans ug sb obs g i).isNan = true then .error .nanMeans
  else .ok ⟨updMeans ug sb obs, updCovs ug sb obs, updLastMeasured sb obs⟩

/-- Embedding of StateBeliefOverTime (over_time.py): the sequence of
per-timestep StateBeliefs; its constructor reads state_beliefs[0], so a
nonempty sequence is assumed where needed via a 0 < T hypothesis. -/
structure SBOT (G n M T : ℕ) where
  sbs : Fin T → StateBelief G n M

/-- Entry of the stacked means tensor (self.means[g, t]). -/
def SBOT.meansAt {T : ℕ} (s : SBOT G n M T) (g : Fin G) (t : Fin T) : Fin n → ℚ :=
  (s.sbs t).means g

/-- Entry of the stacked covs tensor (self.covs[g, t]). -/
def SBOT.covsAt {T : ℕ} (s : SBOT G n M T) (g : Fin G) (t : Fin T) :
    Matrix (Fin n) (Fin n) ℚ :=
  (s.sbs t).covs g

/-- All contained beliefs have been measured (their H and R slots are set). -/
def SBOT.allMeasured {T : ℕ} (s : SBOT G n M T) : Prop :=
  ∀ t, (s.sbs t).hH.isSome = true ∧ (s.sbs t).hR.isSome = true

instance {T : ℕ} (s : SBOT G n M T) : Decidable (s.allMeasured) :=
  Fintype.decidableForallFintype

/-- Embedding of the H property of over_time.py lines 69-73: stacking sb.H
over the contained beliefs, which raises UnmeasuredError as soon as one of
them has no H. -/
def SBOT.stackH {T : ℕ} (s : SBOT G n M T) :
    Except SBErr (Fin G → Fin T → Matrix (Fin M) (Fin n) ℚ) :=
  if h : ∀ t, (s.sbs t).hH.isSome = true then
    .ok (fun g t => ((s.sbs t).hH.get (h t)) g)
  else .error .unmeasured

/-- Embedding of the R property of over_time.py lines 75-79. -/
def SBOT.stackR {T : ℕ} (s : SBOT G n M T) :
    Except SBErr (Fin G → Fin T → Matrix (Fin M) (Fin M) ℚ) :=
  if h : ∀ t, (s.sbs t).hR.isSome = true then
    .ok (fun g t => ((s.sbs t).hR.get (h t)) g)
  else .error .unmeasured

/-- Embedding of the last_update_idx loop of over_time.py lines 45-48,
processing timesteps k = 0, 1, ... in order: starting from zeros, every group
whose last_measured at step k is at most 1 has its index overwritten with k. -/
def luiN {T : ℕ} (lms : Fin T → Fin G → ℤ) (hT : 0 < T) : ℕ → Fin G → Fin T
  | 0 => fun _ => ⟨0, hT⟩
  | k + 1 => fun g =>
    if h : k < T then
      if lms ⟨k, h⟩ g ≤ 1 then ⟨k, h⟩ else luiN lms hT k g
    else luiN lms hT k g

/-- The per-group last_update_idx tensor of a StateBeliefOverTime. -/
def SBOT.lastUpdateIdx {T : ℕ} (s : SBOT G n M T) (hT : 0 < T) : Fin G → Fin T :=
  luiN (fun t g => (s.sbs t).lastMeasured g) hT T

/-- A timestep at which an actual measurement updated the belief of group g:
by the update semantics of base.py (the reset in _update_last_measured), these
are exactly the timesteps whose stored last_measured is zero. -/
def measuredAt {T : ℕ} (lms : Fin T → Fin G → ℤ) (g : Fin G) (t : Fin T) : Prop :=
  lms t g = 0

instance {T : ℕ} (lms : Fin T → Fin G → ℤ) (g : Fin G) (t : Fin T) :
    Decidable (measuredAt lms g t) :=
  inferInstanceAs (Decidable (_ = _))

/-- Embedding of StateBeliefOverTime._restore_sb (over_time.py lines 437-449):
select per group the requested timestep of the stacked means, covs, H and R
(evaluating the H and R properties, which raise when a belief is unmeasured),
then build a fresh belief from the selected means and covs — so last_measured
takes its all-zeros default — and attach the selected H and R. -/
def SBOT.restoreSB {T : ℕ} (s : SBOT G n M T) (idx : Fin G → Fin T) :
    Except SBErr (StateBelief G n M) :=
  match s.stackH, s.stackR with
  | .ok Hs, .ok Rs =>
    .ok { means := fun g => s.meansAt g (idx g)
          covs := fun g => s.covsAt g (idx g)
          lastMeasured := fun _ => 0
          hH := some (fun g => Hs g (idx g))
          hR := some (fun g => Rs g (idx g)) }
  | .error e, _ => .error e
  | .ok _, .error e => .error e

/-- Embedding of StateBeliefOverTime.state_belief_for_time (over_time.py lines
106-116): raises unless time_idx has one entry per group, then restores. -/
def SBOT.stateBeliefForTime {T : ℕ} (s : SBOT G n M T) (timeIdx : List (Fin T)) :
    Except SBErr (StateBelief G n M) :=
  if h : timeIdx.length = G then
    s.restoreSB (fun g => timeIdx.get ⟨g.val, by rw [h]; exact g.isLt⟩)
  else .error .lenMismatch

/-- Embedding of StateBeliefOverTime.last_update (over_time.py lines 118-124):
restore at the per-group last_update_idx. -/
def SBOT.lastUpdate {T : ℕ} (s : SBOT G n M T) (hT : 0 < T) :
    Except SBErr (StateBelief G n M) :=
  s.restoreSB (s.lastUpdateIdx hT)

/-- Concrete belief with last_measured zero (measured at this step). -/
def cxSB0 : StateBelief 1 1 1 :=
  { means := fun _ _ => 0, covs := fun _ => 0, lastMeasured := fun _ => 0
    hH := none, hR := none }

/-- Concrete belief with last_measured one (predicted once, not measured). -/
def cxSB1 : StateBelief 1 1 1 :=
  { means := fun _ _ => 0, covs := fun _ => 0, lastMeasured := fun _ => 1
    hH := none, hR := none }

/-- Concrete two-step sequence: measured at step 0, unmeasured at step 1. -/
def cxSBOT : SBOT 1 1 1 2 :=
  ⟨fun t => if t = 0 then cxSB0 else cxSB1⟩

/-- Concrete measured belief (H and R set) for the restore witness. -/
def wsbM : StateBelief 1 1 1 :=
  { means := fun _ _ => 2, covs := fun _ => 1, lastMeasured := fun _ => 3
    hH := some (fun _ => 1), hR := some (fun _ => 1) }

/-- Concrete two-step measured sequence for the restore witness. -/
def wSBOT : SBOT 1 1 1 2 := ⟨fun _ => wsbM⟩

/-- Concrete per-group time selection for the restore witness. -/
def widx : Fin 1 → Fin 2 := fun _ => 1

/-- True of a (group, time) pair whose observation row is entirely missing. -/
def obsRowAllNan {T : ℕ} (obs : Fin G → Fin T → Fin M → FVal)
    (g : Fin G) (t : Fin T) : Prop :=
  ∀ mm, (obs g t mm).isNan = true

/-- True of a (group, time) pair whose observation row has no missing entry. -/
def obsRowNoNan {T : ℕ} (obs : Fin G → Fin T → Fin M → FVal)
    (g : Fin G) (t : Fin T) : Prop :=
  ∀ mm, (obs g t mm).isNan = false

/-- Embedding of torch.isnan(obs[:, t]).all(). -/
def colAllNan {T : ℕ} (obs : Fin G → Fin T → Fin M → FVal) (t : Fin T) : Prop :=
  ∀ g, obsRowAllNan obs g t

/-- Embedding of not torch.isnan(obs[:, t]).any(). -/
def colNoNan {T : ℕ} (obs : Fin G → Fin T → Fin M → FVal) (t : Fin T) : Prop :=
  ∀ g, obsRowNoNan obs g t

instance {T : ℕ} (obs : Fin G → Fin T → Fin M → FVal) (g : Fin G) (t : Fin T) :
    Decidable (obsRowAllNan obs g t) :=
  Fintype.decidableForallFintype

instance {T : ℕ} (obs : Fin G → Fin T → Fin M → FVal) (g : Fin G) (t : Fin T) :
    Decidable (obsRowNoNan obs g t) :=
  Fintype.decidableForallFintype

instance {T : ℕ} (obs : Fin G → Fin T → Fin M → FVal) (t : Fin T) :
    Decidable (colAllNan obs t) :=
  Fintype.decidableForallFintype

instance {T : ℕ} (obs : Fin G → Fin T → Fin M → FVal) (t : Fin T) :
    Decidable (colNoNan obs t) :=
  Fintype.decidableForallFintype

/-- The valid measurement dimensions of one (group, time) cell, in index
order: the measure_idx key computed by _which_valid_key (over_time.py lines
451-457). -/
def vList {T : ℕ} (obs : Fin G → Fin T → Fin M → FVal) (g : Fin G) (t : Fin T) :
    List (Fin M) :=
  (List.finRange M).filter (fun mm => !(obs g t mm).isNan)

/-- Accumulator of the scanning loop of log_prob (over_time.py lines 151-174):
the times_without_nan list, last_nonan_t (initialized to -1), and the
lp_groups dictionary of signature buckets — an insertion-ordered association
list from (time, valid-measure-list) keys to the groups collected for them. -/
structure LPAcc (G T M : ℕ) where
  twn : List (Fin T)
  lnt : ℤ
  sig : List ((Fin T × List (Fin M)) × List (Fin G))

/-- Embedding of lp_groups[(t, measure_idx)].append(g) on the defaultdict:
append to the entry with this key, or create it at the end. -/
def addSig {T : ℕ} (sig : List ((Fin T × List (Fin M)) × List (Fin G)))
    (key : Fin T × List (Fin M)) (g : Fin G) :
    List ((Fin T × List (Fin M)) × List (Fin G)) :=
  match sig with
  | [] => [(key, [g])]
  | (k, gs) :: rest =>
    if k = key then (k, gs ++ [g]) :: rest else (k, gs) :: addSig rest key g

/-- Body of the inner loop over groups of a timestep with partial missingness
(over_time.py lines 167-173): skip an all-missing group, bucket any other by
its valid-dimension signature. -/
def sigStepF {T : ℕ} (obs : Fin G → Fin T → Fin M → FVal) (t : Fin T)
    (sacc : List ((Fin T × List (Fin M)) × List (Fin G))) (g : Fin G) :
    List ((Fin T × List (Fin M)) × List (Fin G)) :=
  if obsRowAllNan obs g t then sacc else addSig sacc (t, vList obs g t) g

/-- The inner loop over groups of a timestep with partial missingness. -/
def sigStep {T : ℕ} (obs : Fin G → Fin T → Fin M → FVal) (t : Fin T)
    (sig0 : List ((Fin T × List (Fin M)) × List (Fin G))) :
    List ((Fin T × List (Fin M)) × List (Fin G)) :=
  (List.finRange G).foldl (sigStepF obs t) sig0

/-- One iteration of the scanning loop of log_prob for timestep t: skip
all-missing timesteps; for NaN-free timesteps extend the contiguous leading
block when possible (last_nonan_t == t - 1) and otherwise record the time in
times_without_nan; bucket all other timesteps by missingness signature. -/
def lpStep {T : ℕ} (obs : Fin G → Fin T → Fin M → FVal)
    (acc : LPAcc G T M) (t : Fin T) : LPAcc G T M :=
  if colAllNan obs t then acc
  else if colNoNan obs t then
    if acc.lnt = ((t : ℕ) : ℤ) - 1 then { acc with lnt := acc.lnt + 1 }
    else { acc with twn := acc.twn ++ [t] }
  else { acc with sig := sigStep obs t acc.sig }

/-- The accumulator after the scanning loop has processed timesteps
0, 1, ..., k-1 in order (for t in range(num_times)). -/
def lpAccN {T : ℕ} (obs : Fin G → Fin T → Fin M → FVal) : ℕ → LPAcc G T M
  | 0 => ⟨[], -1, []⟩
  | k + 1 => if h : k < T then lpStep obs (lpAccN obs k) ⟨k, h⟩ else lpAccN obs k

/-- The accumulator after the whole scanning loop. -/
def lpAcc {T : ℕ} (obs : Fin G → Fin T → Fin M → FVal) : LPAcc G T M :=
  lpAccN obs T

/-- One assignment target of log_prob: the (group-indices, time-indices,
measure-indices) selector of a bucket, with slices embedded as full or range
index lists. -/
def LPAssign (G T M : ℕ) : Type :=
  List (Fin G) × List (Fin T) × List (Fin M)

/-- The time indices selected by slice(last_nonan_t + 1). -/
def blockTimes {T : ℕ} (lnt : ℤ) : List (Fin T) :=
  (List.finRange T).filter (fun t => ((t : ℕ) : ℤ) ≤ lnt)

/-- The assignment list built by log_prob (over_time.py lines 175-183): the
signature buckets, then the leading nan-free block when nonempty, then the
remaining nan-free times when any. -/
def lpAssignments {T : ℕ} (obs : Fin G → Fin T → Fin M → FVal) :
    List (LPAssign G T M) :=
  let acc := lpAcc obs
  let base := acc.sig.map (fun kv => (kv.2, [kv.1.1], kv.1.2))
  let base2 :=
    if 0 ≤ acc.lnt then
      base ++ [(List.finRange G, blockTimes acc.lnt, List.finRange M)]
    else base
  if acc.twn ≠ [] then
    base2 ++ [(List.finRange G, acc.twn, List.finRange M)]
  else base2

/-- The family-specific _log_prob_with_subsetting routine, abstracted to its
pointwise content: for a (group, time) cell and a measure selector it returns
the log-probability given the selected observation values. The
CensoredGaussian variant (censored_gaussian.py lines 149-199) computes each
(group, time) entry of its batched call from exactly these inputs (its
predictive mean and covariance are fixed by the receiver); the Gaussian
variant is modelled from the spec the same way, as the measurement-scale
predictive density evaluated on the selected dimensions. -/
def LPFun (G T M : ℕ) : Type :=
  Fin G → Fin T → List (Fin M) → List FVal → ℚ

/-- One assignment out[group_idx, time_idx] = lp-subsetting(...) of
over_time.py lines 187-205: every selected (group, time) cell receives the
family value for the assignment's measure selector and the observation values
it selects. -/
def applyAssign {T : ℕ} (lp : LPFun G T M) (obs : Fin G → Fin T → Fin M → FVal)
    (out : Fin G → Fin T → ℚ) (a : LPAssign G T M) : Fin G → Fin T → ℚ :=
  fun g t =>
    if g ∈ a.1 ∧ t ∈ a.2.1 then lp g t a.2.2 (a.2.2.map (obs g t))
    else out g t

/-- Embedding of StateBeliefOverTime.log_prob (over_time.py lines 127-207):
out starts as zeros and the assignments are executed in order. -/
def logProbTK {T : ℕ} (lp : LPFun G T M) (obs : Fin G → Fin T → Fin M → FVal) :
    Fin G → Fin T → ℚ :=
  (lpAssignments obs).foldl (applyAssign lp obs) (fun _ _ => 0)

/-- The contract of log_prob: zero where everything is missing, otherwise the
family value at exactly the valid dimensions of the cell. -/
def logProbPointwise {T : ℕ} (lp : LPFun G T M)
    (obs : Fin G → Fin T → Fin M → FVal) : Fin G → Fin T → ℚ :=
  fun g t =>
    if obsRowAllNan obs g t then 0
    else lp g t (vList obs g t) ((vList obs g t).map (obs g t))

/-- A clean column: a timestep whose observations are NaN-free (and not
vacuously all-missing), eligible for the block and times_without_nan paths. -/
def cleanCol {T : ℕ} (obs : Fin G → Fin T → Fin M → FVal) (t : Fin T) : Prop :=
  colNoNan obs t ∧ ¬ colAllNan obs t

instance {T : ℕ} (obs : Fin G → Fin T → Fin M → FVal) (t : Fin T) :
    Decidable (cleanCol obs t) :=
  instDecidableAnd

/-- All timesteps up to index j are clean: index j lies in the contiguous
leading nan-free block. -/
def CPfx {T : ℕ} (obs : Fin G → Fin T → Fin M → FVal) (j : ℕ) : Prop :=
  ∀ t : Fin T, (t : ℕ) ≤ j → cleanCol obs t

instance {T : ℕ} (obs : Fin G → Fin T → Fin M → FVal) (j : ℕ) :
    Decidable (CPfx obs j) :=
  Fintype.decidableForallFintype

/-- The number of processed timesteps below k that lie in the contiguous
leading nan-free block (so last_nonan_t after k steps equals this minus 1). -/
def cpc {T : ℕ} (obs : Fin G → Fin T → Fin M → FVal) : ℕ → ℕ
  | 0 => 0
  | k + 1 => cpc obs k + (if k < T ∧ CPfx obs k then 1 else 0)

/-- Membership of a (key, group) pair in the signature dictionary. -/
def pairMem {T : ℕ} (sig : List ((Fin T × List (Fin M)) × List (Fin G)))
    (key : Fin T × List (Fin M)) (g : Fin G) : Prop :=
  ∃ p, p ∈ sig ∧ p.1 = key ∧ g ∈ p.2

/-- The loop invariant of the log_prob scanning loop after k iterations:
last_nonan_t counts the processed part of the leading clean block;
times_without_nan holds exactly the processed clean timesteps beyond that
block; the signature dictionary is sound (every collected pair is a
non-all-missing group at a partially missing timestep, keyed by its valid
dimensions) and complete for the processed timesteps. -/
def AccInv {T : ℕ} (obs : Fin G → Fin T → Fin M → FVal) (k : ℕ)
    (acc : LPAcc G T M) : Prop :=
  (acc.lnt = ((cpc obs k : ℕ) : ℤ) - 1) ∧
  (∀ t : Fin T, t ∈ acc.twn ↔
    ((t : ℕ) < k ∧ cleanCol obs t ∧ ¬ CPfx obs (t : ℕ))) ∧
  (∀ t ml g, pairMem acc.sig (t, ml) g →
    ((t : ℕ) < k ∧ ¬ colAllNan obs t ∧ ¬ colNoNan obs t ∧
      ¬ obsRowAllNan obs g t ∧ vList obs g t = ml)) ∧
  (∀ t : Fin T, (t : ℕ) < k → ¬ colAllNan obs t → ¬ colNoNan obs t →
    ∀ g, ¬ obsRowAllNan obs g t → pairMem acc.sig (t, vList obs g t) g)

/-- Concrete family value function used as witness input. -/
def wlp : LPFun 2 1 1 := fun _ _ _ _ => 3

/-- Concrete observation tensor with both groups observed at the only step. -/
def wobsA : Fin 2 → Fin 1 → Fin 1 → FVal := fun _ _ _ => .num 5

/-- Concrete observation tensor agreeing with wobsA on group 0 but with group
1 entirely missing, forcing the signature bucketing path. -/
def wobsB : Fin 2 → Fin 1 → Fin 1 → FVal :=
  fun g _ _ => if g = 0 then .num 5 else .nan

/-- Untyped tensor: a shape and flattened rational data, used to embed the
shape validation that the StateBelief constructor performs on raw tensors. -/
structure RTensor where
  shape : List ℕ
  data : List ℚ
deriving DecidableEq, Repr

/-- The errors raised while constructing a StateBelief: the unpacking of
means.shape in the constructor (base.py line 31) and the checks of _validate
(base.py lines 206-218), in program order. -/
inductive CtorErr where
  | meansNotRank2
  | covsNotRank3
  | batchMismatch
  | covsNotSquare
  | stateDimMismatch
  | badLastMeasured
deriving DecidableEq, Repr

/-- The fields stored by a successfully validated construction. -/
structure RawStateBelief where
  numGroups : ℕ
  stateSize : ℕ
  means : RTensor
  covs : RTensor
  lastMeasured : RTensor
deriving Repr

/-- Embedding of StateBelief.__init__ together with _validate (base.py lines
21-43 and 206-218): unpack means.shape into (num_groups, state_size) — any
non-rank-2 means fails here or in the first _validate check — default
last_measured to zeros of length num_groups, then run the _validate checks in
order. The getD 0 accesses embed shape[i] lookups. -/
def mkStateBelief (means covs : RTensor) (lastMeasuredOpt : Option RTensor) :
    Except CtorErr RawStateBelief :=
  match means.shape with
  | [g, s] =>
    let lm := lastMeasuredOpt.getD ⟨[g], List.replicate g 0⟩
    if covs.shape.length ≠ 3 then .error .covsNotRank3
    else if covs.shape.getD 0 0 ≠ g then .error .batchMismatch
    else if covs.shape.getD 1 0 ≠ covs.shape.getD 2 0 then .error .covsNotSquare
    else if covs.shape.getD 1 0 ≠ s then .error .stateDimMismatch
    else if lm.shape.getD 0 0 ≠ g ∨ lm.shape.length ≠ 1 then .error .badLastMeasured
    else .ok ⟨g, s, means, covs, lm⟩
  | _ => .error .meansNotRank2

/-- Row-major entry access into a rank-3 tensor. -/
def RTensor.entry3 (t : RTensor) (i j k : ℕ) : ℚ :=
  t.data.getD ((i * t.shape.getD 1 0 + j) * t.shape.getD 2 0 + k) 0

/-- Value-level symmetry of a rank-3 (batch of square matrices) tensor in its
last two dimensions. -/
def symm3 (t : RTensor) : Prop :=
  ∀ i j k, i < t.shape.getD 0 0 → j < t.shape.getD 1 0 → k < t.shape.getD 2 0 →
    t.entry3 i j k = t.entry3 i k j

/-- Decision of whether an Except value is a success. -/
def exceptIsOk {ε α : Type} : Except ε α → Bool
  | .ok _ => true
  | .error _ => false

/-- Well-formedness of the constructor inputs at the shape level: means is
rank 2, covs is rank 3 with matching batch size and square matching state
dimension, and last_measured (when given) is rank 1 of the group count. -/
def wellFormedSB (means covs : RTensor) (lastMeasuredOpt : Option RTensor) : Prop :=
  ∃ g s, means.shape = [g, s] ∧ covs.shape = [g, s, s] ∧
    (∀ lm, lastMeasuredOpt = some lm → lm.shape = [g])

/-- Concrete counterexample input: a square rank-3 covs tensor whose values
are not symmetric. -/
def cxCovs : RTensor := ⟨[1, 2, 2], [0, 1, 2, 3]⟩

/-- Concrete rank-2 means tensor matching cxCovs. -/
def cxMeans : RTensor := ⟨[1, 2], [0, 0]⟩

/-- Concrete per-group update routine used as witness input. -/
def wug : UpdateGroupFn 2 1 1 :=
  fun _ _ => (fun _ => .num 9, fun _ _ => .num 3)

/-- Concrete two-group belief used as witness input. -/
def wsb2 : StateBelief 2 1 1 :=
  { means := fun _ _ => 1, covs := fun _ => 1, lastMeasured := fun g => if g = 0 then 4 else 6
    hH := none, hR := none }

/-- Concrete observation batch: group 0 fully missing, group 1 observed. -/
def wobs2 : Fin 2 → Fin 1 → FVal :=
  fun g _ => if g = 0 then .nan else .num 4

/-- Concrete observation batch that is entirely missing. -/
def wobsAll : Fin 2 → Fin 1 → FVal := fun _ _ => .nan

/-- Concrete observation batch containing an infinity. -/
def wobsInf : Fin 2 → Fin 1 → FVal :=
  fun g _ => if g = 0 then .pinf else .num 4

/-- Concrete per-group update routine that produces a NaN mean. -/
def wugNan : UpdateGroupFn 2 1 1 :=
  fun _ _ => (fun _ => .nan, fun _ _ => .num 0)

/-- Concrete belief used as witness input: one group, one state dimension,
zero mean and exactly singular (zero) covariance. -/
def wsb : StateBelief 1 1 1 :=
  StateBelief.init (fun _ _ => 0) (fun _ => 0)

/-- Concrete sampler used as witness input: decomposition fails (error code 7)
exactly while the covariance entry is zero, succeeds otherwise. -/
def wsampler (sb : StateBelief 1 1 1) : Except ℕ (Fin 1 → Fin 1 → ℚ) :=
  if sb.covs 0 0 0 = 0 then .error 7 else .ok (fun _ _ => 5)

end TorchKalman

namespace TorchKalman

variable {G n M : ℕ}

/-- C2: for every StateBelief and batch-aligned F, Q, predict returns a belief
whose means are F times the means, whose covariances are F * covs * F-transpose
plus Q, and whose last_measured is the old value plus one, for every group.
The embedding is pure, so the receiver belief is not modified. -/
theorem predict_spec (sb : StateBelief G n M)
    (F Q : Fin G → Matrix (Fin n) (Fin n) ℚ) :
    (sb.predict F Q).means = (fun g => (F g).mulVec (sb.means g)) ∧
    (sb.predict F Q).covs = (fun g => F g * sb.covs g * (F g).transpose + Q g) ∧
    (sb.predict F Q).lastMeasured = (fun g => sb.lastMeasured g + 1) := by
  refine ⟨?_, ?_, rfl⟩
  · funext g i
    simp [StateBelief.predict, Matrix.mulVec, Matrix.dotProduct]
  · funext g
    ext i j
    simp only [StateBelief.predict, tmatmul, Matrix.add_apply, Matrix.mul_apply,
      Matrix.transpose_apply]

/-- C7: accessing H or R before compute_measurement raises the unmeasured
error; a second compute_measurement without overwrite raises and the stored
H, R stay as first set; with overwrite it succeeds and replaces them. -/
theorem computeMeasurement_spec (sb : StateBelief G n M)
    (H R H₂ R₂) (h0 : sb.hH = none) (h0R : sb.hR = none) :
    (sb.getH = .error .unmeasured ∧ sb.getR = .error .unmeasured) ∧
    ∃ sb₁, sb.computeMeasurement H R false = .ok sb₁ ∧
      sb₁.hH = some H ∧ sb₁.hR = some R ∧
      sb₁.computeMeasurement H₂ R₂ false = .error .recompute ∧
      ∃ sb₂, sb₁.computeMeasurement H₂ R₂ true = .ok sb₂ ∧
        sb₂.hH = some H₂ ∧ sb₂.hR = some R₂ := by
  constructor
  · constructor
    · simp [StateBelief.getH, h0]
    · simp [StateBelief.getR, h0R]
  · refine ⟨{ sb with hH := some H, hR := some R }, ?_, rfl, rfl, ?_, ?_⟩
    · simp [StateBelief.computeMeasurement, h0]
    · simp [StateBelief.computeMeasurement]
    · refine ⟨{ sb with hH := some H₂, hR := some R₂ }, ?_, rfl, rfl⟩
      simp [StateBelief.computeMeasurement]

/-- Witness for computeMeasurement_spec at a concrete fresh belief. -/
theorem computeMeasurement_spec_witness :
    ((StateBelief.init (G := 1) (n := 1) (M := 1)
        (fun _ _ => 0) (fun _ => 0)).getH = .error .unmeasured ∧
      (StateBelief.init (G := 1) (n := 1) (M := 1)
        (fun _ _ => 0) (fun _ => 0)).getR = .error .unmeasured) ∧
    ∃ sb₁, (StateBelief.init (G := 1) (n := 1) (M := 1)
        (fun _ _ => 0) (fun _ => 0)).computeMeasurement (fun _ => 1) (fun _ => 1)
          false = .ok sb₁ ∧
      sb₁.hH = some (fun _ => 1) ∧ sb₁.hR = some (fun _ => 1) ∧
      sb₁.computeMeasurement (fun _ => 0) (fun _ => 0) false = .error .recompute ∧
      ∃ sb₂, sb₁.computeMeasurement (fun _ => 0) (fun _ => 0) true = .ok sb₂ ∧
        sb₂.hH = some (fun _ => 0) ∧ sb₂.hR = some (fun _ => 0) :=
  computeMeasurement_spec _ _ _ _ _ rfl rfl

/-- Unfolding lemma: after a failed attempt the loop continues on the
diagonally inflated belief, carrying the error. -/
theorem realizeLoop_fail {ε : Type}
    (sampler : StateBelief G n M → Except ε (Fin G → Fin n → ℚ))
    (k : ℕ) (sb : StateBelief G n M) (last : Option ε) (e : ε)
    (h : sampler sb = .error e) :
    realizeLoop sampler (k + 1) sb last
      = realizeLoop sampler k { sb with covs := inflateDiag sb.covs } (some e) := by
  simp [realizeLoop, h]

/-- Unfolding lemma: on a successful attempt the loop stops, overwriting the
means with the sample and zeroing the covariance. -/
theorem realizeLoop_ok {ε : Type}
    (sampler : StateBelief G n M → Except ε (Fin G → Fin n → ℚ))
    (k : ℕ) (sb : StateBelief G n M) (last : Option ε) (m : Fin G → Fin n → ℚ)
    (h : sampler sb = .ok m) :
    realizeLoop sampler (k + 1) sb last
      = some (.ok { sb with means := m, covs := fun _ => 0 }) := by
  simp [realizeLoop, h]

/-- Inflating first and iterating is the same as iterating one step more. -/
theorem inflateIter_succ_left (sb : StateBelief G n M) (k : ℕ) :
    inflateIter sb (k + 1)
      = inflateIter { sb with covs := inflateDiag sb.covs } k := by
  induction k with
  | zero => rfl
  | succ k ih =>
    show { inflateIter sb (k+1) with covs := inflateDiag (inflateIter sb (k+1)).covs } = _
    rw [ih]
    rfl

/-- Success case of the retry loop, stated for any attempt budget: if the
first k attempts fail and attempt k succeeds within the budget, the loop
returns the belief whose covariance was inflated k times, with the sampled
means and a zeroed covariance. -/
theorem realizeLoop_success {ε : Type}
    (sampler : StateBelief G n M → Except ε (Fin G → Fin n → ℚ)) :
    ∀ (k ntry : ℕ) (sb : StateBelief G n M) (last : Option ε)
      (m : Fin G → Fin n → ℚ),
      k < ntry →
      (∀ j, j < k → ∃ e, sampler (inflateIter sb j) = .error e) →
      sampler (inflateIter sb k) = .ok m →
      realizeLoop sampler ntry sb last
        = some (.ok { inflateIter sb k with means := m, covs := fun _ => 0 }) := by
  intro k
  induction k with
  | zero =>
    intro ntry sb last m hk _ hok
    obtain ⟨nt, rfl⟩ := Nat.exists_eq_succ_of_ne_zero (Nat.pos_iff_ne_zero.mp hk)
    exact realizeLoop_ok sampler nt sb last m hok
  | succ k ih =>
    intro ntry sb last m hk hfail hok
    obtain ⟨nt, rfl⟩ := Nat.exists_eq_succ_of_ne_zero
      (Nat.pos_iff_ne_zero.mp (Nat.lt_of_le_of_lt (Nat.zero_le _) hk))
    obtain ⟨e, he⟩ := hfail 0 (Nat.succ_pos k)
    rw [realizeLoop_fail sampler nt sb last e he]
    rw [inflateIter_succ_left] at hok
    have hfail' : ∀ j, j < k →
        ∃ e, sampler (inflateIter { sb with covs := inflateDiag sb.covs } j) = .error e := by
      intro j hj
      rw [← inflateIter_succ_left]
      exact hfail (j + 1) (Nat.succ_lt_succ hj)
    rw [ih nt _ (some e) m (Nat.lt_of_succ_lt_succ hk) hfail' hok]
    rw [inflateIter_succ_left]

/-- Failure case of the retry loop: if every attempt within the budget fails,
the loop re-raises the error of the last attempt. -/
theorem realizeLoop_allFail {ε : Type}
    (sampler : StateBelief G n M → Except ε (Fin G → Fin n → ℚ)) :
    ∀ (ntry : ℕ) (es : ℕ → ε) (sb : StateBelief G n M) (last : Option ε),
      1 ≤ ntry →
      (∀ k, k < ntry → sampler (inflateIter sb k) = .error (es k)) →
      realizeLoop sampler ntry sb last = some (.error (es (ntry - 1))) := by
  intro ntry
  induction ntry with
  | zero => intro es sb last h; exact absurd h (by norm_num)
  | succ nt ih =>
    intro es sb last _ hfail
    have he0 := hfail 0 (Nat.succ_pos nt)
    rw [realizeLoop_fail sampler nt sb last (es 0) (by simpa using he0)]
    rcases Nat.eq_zero_or_pos nt with h0 | hpos
    · subst h0
      rfl
    · have hfail' : ∀ k, k < nt →
          sampler (inflateIter { sb with covs := inflateDiag sb.covs } k)
            = .error ((fun j => es (j + 1)) k) := by
        intro k hk
        rw [← inflateIter_succ_left]
        exact hfail (k + 1) (Nat.succ_lt_succ hk)
      rw [ih (fun j => es (j + 1)) _ (some (es 0)) hpos hfail']
      congr 1
      congr 2
      omega

/-- C3: _realize with attempt bound ntry at least 1 calls the sampler at most
ntry times, inflating every diagonal entry of the covariance by exactly 1e-9
after each failed attempt and before the next one; on the first successful
attempt it sets the means to the sampled value and zeroes the covariance, and
if all ntry attempts fail it re-raises the error of the last attempt. -/
theorem realize_spec {ε : Type}
    (sampler : StateBelief G n M → Except ε (Fin G → Fin n → ℚ))
    (ntry : ℕ) (sb : StateBelief G n M) (h1 : 1 ≤ ntry) :
    (∀ k, k < ntry →
      (∀ j, j < k → ∃ e, sampler (inflateIter sb j) = .error e) →
      ∀ m, sampler (inflateIter sb k) = .ok m →
        sb.realize sampler ntry
          = some (.ok { inflateIter sb k with means := m, covs := fun _ => 0 })) ∧
    (∀ es : ℕ → ε, (∀ k, k < ntry → sampler (inflateIter sb k) = .error (es k)) →
      sb.realize sampler ntry = some (.error (es (ntry - 1)))) := by
  constructor
  · intro k hk hfail m hok
    exact realizeLoop_success sampler k ntry sb none m hk hfail hok
  · intro es hfail
    exact realizeLoop_allFail sampler ntry es sb none h1 hfail

/-- Witness for realize_spec: with an exactly singular covariance the first
attempt fails, the diagonal inflation makes the second succeed, and the
realized belief has the sampled means and zero covariance. -/
theorem realize_spec_witness :
    (1 : ℕ) ≤ 2 ∧
    wsb.realize wsampler 2
      = some (.ok { inflateIter wsb 1 with means := fun _ _ => 5, covs := fun _ => 0 }) := by
  refine ⟨by norm_num, ?_⟩
  refine (realize_spec wsampler 2 wsb (by norm_num)).1 1 (by norm_num) ?_ _ ?_
  · intro j hj
    have hj0 : j = 0 := by omega
    subst hj0
    refine ⟨7, ?_⟩
    simp [wsampler, inflateIter, wsb, StateBelief.init]
  · have hne : (0 : ℚ) + 1 / 1000000000 ≠ 0 := by norm_num
    simp [wsampler, inflateIter, inflateDiag, wsb, StateBelief.init, hne]

/-- A successful update returns exactly the computed fields. -/
theorem update_ok_elim (ug : UpdateGroupFn G n M) (sb : StateBelief G n M)
    (obs : Fin G → Fin M → FVal) (res : UpdResult G n)
    (h : sb.update ug obs = .ok res) :
    res = ⟨updMeans ug sb obs, updCovs ug sb obs, updLastMeasured sb obs⟩ := by
  rw [StateBelief.update] at h
  split at h
  · exact absurd h (by simp)
  · split at h
    · exact absurd h (by simp)
    · injection h with h
      exact h.symm

/-- C4: a group whose observation row is entirely missing is silently skipped
by update: on success its mean and covariance are the cloned pre-update
values; and if every group is entirely missing (with at least one measurement
dimension) the update succeeds with everything unchanged, raising no error. -/
theorem update_allMissing_spec (ug : UpdateGroupFn G n M) (sb : StateBelief G n M)
    (obs : Fin G → Fin M → FVal) :
    (∀ res, sb.update ug obs = .ok res → ∀ g, 0 < M → rowAllNan obs g →
      res.means g = (fun i => FVal.num (sb.means g i)) ∧
      res.covs g = (fun i j => FVal.num (sb.covs g i j))) ∧
    (0 < M → (∀ g, rowAllNan obs g) →
      sb.update ug obs = .ok ⟨fun g i => .num (sb.means g i),
        fun g i j => .num (sb.covs g i j), sb.lastMeasured⟩) := by
  constructor
  · intro res hres g hM hg
    have hres' := update_ok_elim ug sb obs res hres
    subst hres'
    have hnot : ¬ noNanObs obs := by
      intro hno
      have := hno g ⟨0, hM⟩
      have := hg ⟨0, hM⟩
      simp_all
    constructor
    · show (updRow ug sb obs g).1 = _
      rw [updRow, if_neg hnot, if_pos hg]
    · show (updRow ug sb obs g).2 = _
      rw [updRow, if_neg hnot, if_pos hg]
  · intro hM hall
    have hnoinf : ¬ hasInfObs obs := by
      rintro ⟨g, mm, hmm⟩
      have := hall g mm
      cases hobs : obs g mm <;> simp_all [FVal.isNan, FVal.isInf]
    have hrow : ∀ g, updRow ug sb obs g
        = (fun i => .num (sb.means g i), fun i j => .num (sb.covs g i j)) := by
      intro g
      have hnot : ¬ noNanObs obs := by
        intro hno
        have h1 := hno g ⟨0, hM⟩
        have h2 := hall g ⟨0, hM⟩
        simp_all
      rw [updRow, if_neg hnot, if_pos (hall g)]
    have hmeans : updMeans ug sb obs = fun g i => .num (sb.means g i) := by
      funext g i
      rw [updMeans, hrow]
    have hcovs : updCovs ug sb obs = fun g i j => .num (sb.covs g i j) := by
      funext g i j
      rw [updCovs, hrow]
    have hlm : updLastMeasured sb obs = sb.lastMeasured := by
      funext g
      rw [updLastMeasured, if_neg]
      rintro ⟨mm, hmm⟩
      rw [hall g mm] at hmm
      exact absurd hmm (by simp)
    have hnonan : ¬ (∃ g i, (updMeans ug sb obs g i).isNan = true) := by
      rintro ⟨g, i, hgi⟩
      rw [hmeans] at hgi
      exact absurd hgi (by simp [FVal.isNan])
    rw [StateBelief.update, if_neg hnoinf, if_neg hnonan, hmeans, hcovs, hlm]

/-- Witness for update_allMissing_spec: two groups, both rows fully missing;
update succeeds and returns the cloned state unchanged. -/
theorem update_allMissing_spec_witness :
    (0 < 1) ∧
    wsb2.update wug wobsAll = .ok ⟨fun g i => .num (wsb2.means g i),
      fun g i j => .num (wsb2.covs g i j), wsb2.lastMeasured⟩ :=
  ⟨Nat.one_pos,
    (update_allMissing_spec wug wsb2 wobsAll).2 Nat.one_pos
      (by intro g mm; rfl)⟩

/-- C5: last_measured bookkeeping. A freshly constructed belief has zeros;
predict adds one to every entry; a successful update resets the entry of every
group with at least one valid dimension to zero and keeps the others; and all
three operations preserve nonnegativity of every entry. -/
theorem lastMeasured_spec (sb : StateBelief G n M)
    (means0 : Fin G → Fin n → ℚ) (covs0 : Fin G → Matrix (Fin n) (Fin n) ℚ)
    (F Q : Fin G → Matrix (Fin n) (Fin n) ℚ)
    (ug : UpdateGroupFn G n M) (obs : Fin G → Fin M → FVal) :
    ((StateBelief.init (M := M) means0 covs0).lastMeasured = fun _ => 0) ∧
    (∀ g, (sb.predict F Q).lastMeasured g = sb.lastMeasured g + 1) ∧
    (∀ res, sb.update ug obs = .ok res → ∀ g,
      res.lastMeasured g
        = if ∃ mm, (obs g mm).isNan = false then 0 else sb.lastMeasured g) ∧
    ((∀ g, 0 ≤ sb.lastMeasured g) →
      (∀ g, 0 ≤ (sb.predict F Q).lastMeasured g) ∧
      (∀ res, sb.update ug obs = .ok res → ∀ g, 0 ≤ res.lastMeasured g)) := by
  refine ⟨rfl, fun g => rfl, ?_, ?_⟩
  · intro res hres g
    rw [update_ok_elim ug sb obs res hres]
    rfl
  · intro hnn
    refine ⟨fun g => ?_, fun res hres g => ?_⟩
    · have := hnn g
      show 0 ≤ sb.lastMeasured g + 1
      omega
    · rw [update_ok_elim ug sb obs res hres]
      show 0 ≤ updLastMeasured sb obs g
      rw [updLastMeasured]
      split
      · exact le_refl 0
      · exact hnn g

/-- Witness for lastMeasured_spec: concrete two-group belief, group 0 missing
and group 1 observed; the observed group resets to zero, the missing one keeps
its (predict-incremented) count. -/
theorem lastMeasured_spec_witness :
    ∃ res, wsb2.update wug wobs2 = .ok res ∧
      res.lastMeasured 0 = 4 ∧ res.lastMeasured 1 = 0 := by
  have hok : wsb2.update wug wobs2
      = .ok ⟨updMeans wug wsb2 wobs2, updCovs wug wsb2 wobs2,
          updLastMeasured wsb2 wobs2⟩ := by
    rw [StateBelief.update, if_neg (by decide), if_neg (by decide)]
  refine ⟨_, hok, ?_, ?_⟩
  · have h := (lastMeasured_spec wsb2 wsb2.means wsb2.covs (fun _ => 1) (fun _ => 1)
      wug wobs2).2.2.1 _ hok 0
    rw [h, if_neg (by decide)]
    rfl
  · have h := (lastMeasured_spec wsb2 wsb2.means wsb2.covs (fun _ => 1) (fun _ => 1)
      wug wobs2).2.2.1 _ hok 1
    rw [h, if_pos (by decide)]

/-- C6: update raises the fatal infinity error whenever the observation batch
contains an infinite entry, and whenever the computed post-update means
contain a NaN no StateBelief is returned (the NaN error is raised, unless the
infinity error preempted it). -/
theorem update_fatal_spec (ug : UpdateGroupFn G n M) (sb : StateBelief G n M)
    (obs : Fin G → Fin M → FVal) :
    (hasInfObs obs → sb.update ug obs = .error .infObs) ∧
    ((∃ g i, (updMeans ug sb obs g i).isNan = true) →
      ∀ res, sb.update ug obs ≠ .ok res) := by
  constructor
  · intro h
    rw [StateBelief.update, if_pos h]
  · intro h res
    rw [StateBelief.update]
    by_cases hinf : hasInfObs obs
    · rw [if_pos hinf]
      simp
    · rw [if_neg hinf, if_pos h]
      simp

/-- Witness for update_fatal_spec: an observation with +Inf is rejected, and a
family routine producing NaN means causes the NaN rejection. -/
theorem update_fatal_spec_witness :
    wsb2.update wug wobsInf = .error .infObs ∧
    ∀ res, wsb2.update wugNan wobs2 ≠ .ok res := by
  constructor
  · exact (update_fatal_spec wug wsb2 wobsInf).1 (by decide)
  · exact (update_fatal_spec wugNan wsb2 wobs2).2 (by decide)

/-- C8 counterexample: construction does not check value-level symmetry of the
covariance tensor. A square rank-3 covs whose values are not symmetric is
accepted, so the claim as stated (construction raises when covs is not
symmetric) is false on this input. -/
theorem mkStateBelief_symmetry_cx :
    (∃ r, mkStateBelief cxMeans cxCovs none = .ok r) ∧ ¬ symm3 cxCovs := by
  constructor
  · exact ⟨_, rfl⟩
  · intro h
    have h1 := h 0 0 1 (by norm_num [cxCovs]) (by norm_num [cxCovs]) (by norm_num [cxCovs])
    norm_num [RTensor.entry3, cxCovs, List.getD] at h1

/-- C8 (amended): construction succeeds exactly when means is rank 2, covs is
rank 3 with a matching batch size and a square (shape-level, which the source
error message calls symmetric) state dimension matching that of means, and
last_measured, when given, is a 1D tensor of length the group count; any
malformed shape raises immediately. -/
theorem mkStateBelief_spec (means covs : RTensor) (lmOpt : Option RTensor) :
    exceptIsOk (mkStateBelief means covs lmOpt) = true ↔
      wellFormedSB means covs lmOpt := by
  constructor
  · intro h
    rcases hm : means.shape with _ | ⟨g, _ | ⟨s, _ | ⟨x, rest⟩⟩⟩ <;>
      rw [mkStateBelief] at h <;> simp only [hm] at h
    · exact absurd h (by simp [exceptIsOk])
    · exact absurd h (by simp [exceptIsOk])
    case cons.cons.nil =>
      have h3 : ¬ (covs.shape.length ≠ 3) := by
        intro hcond
        rw [if_pos hcond] at h
        exact absurd h (by simp [exceptIsOk])
      rw [if_neg h3] at h
      have h0 : ¬ (covs.shape.getD 0 0 ≠ g) := by
        intro hcond
        rw [if_pos hcond] at h
        exact absurd h (by simp [exceptIsOk])
      rw [if_neg h0] at h
      have h12 : ¬ (covs.shape.getD 1 0 ≠ covs.shape.getD 2 0) := by
        intro hcond
        rw [if_pos hcond] at h
        exact absurd h (by simp [exceptIsOk])
      rw [if_neg h12] at h
      have h1s : ¬ (covs.shape.getD 1 0 ≠ s) := by
        intro hcond
        rw [if_pos hcond] at h
        exact absurd h (by simp [exceptIsOk])
      rw [if_neg h1s] at h
      push_neg at h3 h0 h12 h1s
      refine ⟨g, s, hm, ?_, ?_⟩
      · rcases hcs : covs.shape with _ | ⟨a, _ | ⟨b, _ | ⟨c, _ | ⟨d, r⟩⟩⟩⟩ <;>
          rw [hcs] at h3 h0 h12 h1s <;> simp_all [List.getD]
      · intro lm0 hlm
        have h5 : ¬ ((lmOpt.getD ⟨[g], List.replicate g 0⟩).shape.getD 0 0 ≠ g ∨
            (lmOpt.getD ⟨[g], List.replicate g 0⟩).shape.length ≠ 1) := by
          intro hcond
          rw [if_pos hcond] at h
          exact absurd h (by simp [exceptIsOk])
        push_neg at h5
        rw [hlm] at h5
        simp only [Option.getD_some] at h5
        rcases hls : lm0.shape with _ | ⟨a, _ | ⟨b, r⟩⟩ <;>
          rw [hls] at h5 <;> simp_all [List.getD]
    · exact absurd h (by simp [exceptIsOk])
  · rintro ⟨g, s, hm, hc, hl⟩
    rw [mkStateBelief]
    simp only [hm]
    rw [if_neg (by simp [hc]), if_neg (by simp [hc]), if_neg (by simp [hc]),
      if_neg (by simp [hc])]
    rw [if_neg]
    · rfl
    · rcases lmOpt with _ | lm
      · simp
      · have := hl lm rfl
        simp [this]

/-- Maximality of the last_update_idx scan: any timestep below the bound whose
last_measured is at most 1 is dominated by the scan result, whose own
last_measured is then at most 1 as well. -/
theorem luiN_max {T : ℕ} (lms : Fin T → Fin G → ℤ) (hT : 0 < T) :
    ∀ (k : ℕ) (g : Fin G) (t : Fin T), t.val < k → lms t g ≤ 1 →
      lms (luiN lms hT k g) g ≤ 1 ∧ t ≤ luiN lms hT k g := by
  intro k
  induction k with
  | zero =>
    intro g t ht _
    exact absurd ht (Nat.not_lt_zero _)
  | succ k ih =>
    intro g t ht hcond
    simp only [luiN]
    by_cases hk : k < T
    · rw [dif_pos hk]
      by_cases hc : lms ⟨k, hk⟩ g ≤ 1
      · rw [if_pos hc]
        refine ⟨hc, ?_⟩
        rw [Fin.le_def]
        show t.val ≤ k
        omega
      · rw [if_neg hc]
        have htk : t.val ≠ k := by
          intro heq
          apply hc
          have : t = ⟨k, hk⟩ := Fin.ext heq
          rwa [this] at hcond
        exact ih g t (by omega) hcond
    · rw [dif_neg hk]
      have : t.val < k := by
        have := t.isLt
        omega
      exact ih g t this hcond

/-- When no timestep qualifies, the scan keeps its zero initialization. -/
theorem luiN_none {T : ℕ} (lms : Fin T → Fin G → ℤ) (hT : 0 < T) (g : Fin G)
    (hnone : ∀ t, ¬ lms t g ≤ 1) : ∀ k, luiN lms hT k g = ⟨0, hT⟩ := by
  intro k
  induction k with
  | zero => rfl
  | succ k ih =>
    simp only [luiN]
    by_cases hk : k < T
    · rw [dif_pos hk, if_neg (hnone ⟨k, hk⟩)]
      exact ih
    · rw [dif_neg hk]
      exact ih

/-- C9 counterexample: in a two-step sequence where only step 0 was actually
updated by a measurement (last_measured 0) and step 1 was merely predicted
(last_measured 1), last_update_idx points at step 1, which is not a timestep
where a measurement updated the belief — so last_update_idx does not equal
the index of the last actually-measured timestep. -/
theorem lastUpdateIdx_cx :
    cxSBOT.lastUpdateIdx (Nat.succ_pos 1) 0 = 1 ∧
    ¬ measuredAt (fun t g => (cxSBOT.sbs t).lastMeasured g) 0
        (cxSBOT.lastUpdateIdx (Nat.succ_pos 1) 0) ∧
    measuredAt (fun t g => (cxSBOT.sbs t).lastMeasured g) 0 0 := by
  refine ⟨?_, ?_, ?_⟩ <;> decide

/-- C9 (amended): last_update_idx[g] is the largest timestep index t with
state_beliefs[t].last_measured[g] at most 1, or 0 when no timestep qualifies —
a heuristic proxy for (not always equal to) the last actually-measured
timestep. -/
theorem lastUpdateIdx_spec {T : ℕ} (s : SBOT G n M T) (hT : 0 < T) (g : Fin G) :
    (∀ t, (s.sbs t).lastMeasured g ≤ 1 →
      (s.sbs (s.lastUpdateIdx hT g)).lastMeasured g ≤ 1 ∧
        t ≤ s.lastUpdateIdx hT g) ∧
    ((∀ t, ¬ (s.sbs t).lastMeasured g ≤ 1) → s.lastUpdateIdx hT g = ⟨0, hT⟩) := by
  constructor
  · intro t hcond
    exact luiN_max (fun t g => (s.sbs t).lastMeasured g) hT T g t t.isLt hcond
  · intro hnone
    exact luiN_none (fun t g => (s.sbs t).lastMeasured g) hT g hnone T

/-- Witness for lastUpdateIdx_spec on the concrete two-step sequence. -/
theorem lastUpdateIdx_spec_witness :
    (cxSBOT.sbs 0).lastMeasured 0 ≤ 1 ∧
    ((cxSBOT.sbs (cxSBOT.lastUpdateIdx (Nat.succ_pos 1) 0)).lastMeasured 0 ≤ 1 ∧
      (0 : Fin 2) ≤ cxSBOT.lastUpdateIdx (Nat.succ_pos 1) 0) :=
  ⟨by decide, (lastUpdateIdx_spec cxSBOT (Nat.succ_pos 1) 0).1 0 (by decide)⟩

/-- C10: state_belief_for_time raises when time_idx does not have one entry
per group and otherwise restores at the per-group timesteps; the restored
belief (also the one produced by last_update) carries the selected means,
covs, H and R, but its last_measured field is the constructor default of all
zeros, whatever the stored counts were. -/
theorem restoreSB_spec {T : ℕ} (s : SBOT G n M T) (hT : 0 < T)
    (timeIdx : List (Fin T)) (idx : Fin G → Fin T) :
    (timeIdx.length ≠ G → s.stateBeliefForTime timeIdx = .error .lenMismatch) ∧
    (s.allMeasured →
      ∃ Hs Rs, s.stackH = .ok Hs ∧ s.stackR = .ok Rs ∧
        s.restoreSB idx = .ok
          { means := fun g => s.meansAt g (idx g)
            covs := fun g => s.covsAt g (idx g)
            lastMeasured := fun _ => 0
            hH := some (fun g => Hs g (idx g))
            hR := some (fun g => Rs g (idx g)) }) ∧
    (∀ h : timeIdx.length = G,
      s.stateBeliefForTime timeIdx
        = s.restoreSB (fun g => timeIdx.get ⟨g.val, by rw [h]; exact g.isLt⟩)) ∧
    s.lastUpdate hT = s.restoreSB (s.lastUpdateIdx hT) := by
  refine ⟨?_, ?_, ?_, rfl⟩
  · intro hne
    rw [SBOT.stateBeliefForTime, dif_neg hne]
  · intro hall
    have hH : ∀ t, (s.sbs t).hH.isSome = true := fun t => (hall t).1
    have hR : ∀ t, (s.sbs t).hR.isSome = true := fun t => (hall t).2
    have hsH : s.stackH = .ok (fun g t => ((s.sbs t).hH.get (hH t)) g) := by
      rw [SBOT.stackH, dif_pos hH]
    have hsR : s.stackR = .ok (fun g t => ((s.sbs t).hR.get (hR t)) g) := by
      rw [SBOT.stackR, dif_pos hR]
    refine ⟨_, _, hsH, hsR, ?_⟩
    rw [SBOT.restoreSB, hsH, hsR]
  · intro h
    rw [SBOT.stateBeliefForTime, dif_pos h]

/-- Witness for restoreSB_spec on the concrete measured sequence, selecting
timestep 1 for the single group. -/
theorem restoreSB_spec_witness :
    wSBOT.allMeasured ∧
    ∃ Hs Rs, wSBOT.stackH = .ok Hs ∧ wSBOT.stackR = .ok Rs ∧
      wSBOT.restoreSB widx = .ok
        { means := fun g => wSBOT.meansAt g (widx g)
          covs := fun g => wSBOT.covsAt g (widx g)
          lastMeasured := fun _ => 0
          hH := some (fun g => Hs g (widx g))
          hR := some (fun g => Rs g (widx g)) } :=
  ⟨by decide, (restoreSB_spec wSBOT (Nat.succ_pos 1) [] widx).2.1 (by decide)⟩

/-- The valid-dimension list is empty exactly when the row is all-missing. -/
theorem vList_eq_nil_iff {T : ℕ} (obs : Fin G → Fin T → Fin M → FVal)
    (g : Fin G) (t : Fin T) :
    vList obs g t = [] ↔ obsRowAllNan obs g t := by
  simp [vList, List.filter_eq_nil_iff, obsRowAllNan, List.mem_finRange]

/-- With no missing entry the valid-dimension list is the full index list. -/
theorem vList_eq_finRange {T : ℕ} (obs : Fin G → Fin T → Fin M → FVal)
    (g : Fin G) (t : Fin T) (h : obsRowNoNan obs g t) :
    vList obs g t = List.finRange M := by
  rw [vList, List.filter_eq_self]
  intro mm _
  simp [h mm]

/-- The block counter never exceeds the number of processed timesteps. -/
theorem cpc_le {T : ℕ} (obs : Fin G → Fin T → Fin M → FVal) :
    ∀ k, cpc obs k ≤ k := by
  intro k
  induction k with
  | zero => exact le_refl 0
  | succ k ih =>
    rw [cpc]
    split <;> omega

/-- The block counter is monotone in the number of processed timesteps. -/
theorem cpc_mono {T : ℕ} (obs : Fin G → Fin T → Fin M → FVal)
    (k k' : ℕ) (h : k ≤ k') : cpc obs k ≤ cpc obs k' := by
  induction k', h using Nat.le_induction with
  | base => exact le_refl _
  | succ m hm ih =>
    refine le_trans ih ?_
    rw [cpc]
    split <;> omega

/-- The clean-block predicate is monotone downward. -/
theorem cpfx_mono {T : ℕ} (obs : Fin G → Fin T → Fin M → FVal)
    (j j' : ℕ) (h : j' ≤ j) (hc : CPfx obs j) : CPfx obs j' :=
  fun t ht => hc t (le_trans ht h)

/-- When every processed timestep lies in the clean block, the counter equals
the number of processed timesteps. -/
theorem cpc_eq_self {T : ℕ} (obs : Fin G → Fin T → Fin M → FVal) :
    ∀ k, (∀ i, i < k → i < T ∧ CPfx obs i) → cpc obs k = k := by
  intro k
  induction k with
  | zero => intro _; rfl
  | succ k ih =>
    intro h
    rw [cpc, ih (fun i hi => h i (by omega)), if_pos (h k (by omega))]

/-- Indices below the block counter lie in the clean block. -/
theorem cpfx_of_lt_cpc {T : ℕ} (obs : Fin G → Fin T → Fin M → FVal) :
    ∀ k j, j < cpc obs k → (j < T ∧ CPfx obs j) := by
  intro k
  induction k with
  | zero =>
    intro j hj
    exact absurd hj (by rw [cpc]; omega)
  | succ k ih =>
    intro j hj
    rw [cpc] at hj
    by_cases hc : k < T ∧ CPfx obs k
    · rw [if_pos hc] at hj
      by_cases hjk : j < cpc obs k
      · exact ih j hjk
      · have hje : j = cpc obs k := by omega
        subst hje
        have hle := cpc_le obs k
        exact ⟨by omega, cpfx_mono obs k _ hle hc.2⟩
    · rw [if_neg hc] at hj
      exact ih j (by omega)

/-- Clean-block indices are below the block counter of any larger bound. -/
theorem lt_cpc_of_cpfx {T : ℕ} (obs : Fin G → Fin T → Fin M → FVal)
    (k j : ℕ) (hjk : j < k) (hjT : j < T) (hcp : CPfx obs j) :
    j < cpc obs k := by
  have h1 : cpc obs (j + 1) = j + 1 := by
    refine cpc_eq_self obs (j + 1) (fun i hi => ⟨by omega, ?_⟩)
    exact cpfx_mono obs j i (by omega) hcp
  have h2 := cpc_mono obs (j + 1) k hjk
  omega

/-- Membership in the block time selector. -/
theorem mem_blockTimes {T : ℕ} (lnt : ℤ) (t : Fin T) :
    t ∈ blockTimes (T := T) lnt ↔ ((t : ℕ) : ℤ) ≤ lnt := by
  simp [blockTimes, List.mem_filter, List.mem_finRange]

/-- No pair lies in the empty signature dictionary. -/
theorem pairMem_nil {T : ℕ} (key : Fin T × List (Fin M)) (g : Fin G) :
    ¬ pairMem ([] : List ((Fin T × List (Fin M)) × List (Fin G))) key g := by
  rintro ⟨p, hp, _⟩
  exact (List.not_mem_nil p) hp

/-- Pair membership in a cons of the signature dictionary. -/
theorem pairMem_cons {T : ℕ} (k : Fin T × List (Fin M)) (gs : List (Fin G))
    (tl : List ((Fin T × List (Fin M)) × List (Fin G)))
    (key : Fin T × List (Fin M)) (g : Fin G) :
    pairMem ((k, gs) :: tl) key g ↔ ((k = key ∧ g ∈ gs) ∨ pairMem tl key g) := by
  constructor
  · rintro ⟨p, hp, hk, hg⟩
    rcases List.mem_cons.mp hp with h | h
    · subst h
      exact Or.inl ⟨hk, hg⟩
    · exact Or.inr ⟨p, h, hk, hg⟩
  · rintro (⟨hk, hg⟩ | ⟨p, hp, hk, hg⟩)
    · exact ⟨(k, gs), List.mem_cons_self _ _, hk, hg⟩
    · exact ⟨p, List.mem_cons_of_mem _ hp, hk, hg⟩

/-- Effect of one dictionary append on pair membership. -/
theorem addSig_pairMem {T : ℕ} (key : Fin T × List (Fin M)) (g : Fin G) :
    ∀ (sig : List ((Fin T × List (Fin M)) × List (Fin G)))
      (key' : Fin T × List (Fin M)) (g' : Fin G),
      pairMem (addSig sig key g) key' g'
        ↔ (pairMem sig key' g' ∨ (key' = key ∧ g' = g)) := by
  intro sig
  induction sig with
  | nil =>
    intro key' g'
    rw [addSig, pairMem_cons]
    constructor
    · rintro (⟨hk, hg⟩ | h)
      · exact Or.inr ⟨hk.symm, List.mem_singleton.mp hg⟩
      · exact absurd h (pairMem_nil key' g')
    · rintro (h | ⟨hk, hg⟩)
      · exact absurd h (pairMem_nil key' g')
      · exact Or.inl ⟨hk.symm, by simp [hg]⟩
  | cons hd tl ih =>
    rcases hd with ⟨k, gs⟩
    intro key' g'
    rw [addSig]
    by_cases hk : k = key
    · rw [if_pos hk, pairMem_cons, pairMem_cons]
      subst hk
      constructor
      · rintro (⟨hk', hg⟩ | h)
        · rcases List.mem_append.mp hg with h' | h'
          · exact Or.inl (Or.inl ⟨hk', h'⟩)
          · exact Or.inr ⟨hk'.symm, List.mem_singleton.mp h'⟩
        · exact Or.inl (Or.inr h)
      · rintro ((⟨hk', hg⟩ | h) | ⟨hk', hg⟩)
        · exact Or.inl ⟨hk', List.mem_append.mpr (Or.inl hg)⟩
        · exact Or.inr h
        · exact Or.inl ⟨hk'.symm, by simp [hg]⟩
    · rw [if_neg hk, pairMem_cons, pairMem_cons, ih]
      constructor
      · rintro (h | (h | h))
        · exact Or.inl (Or.inl h)
        · exact Or.inl (Or.inr h)
        · exact Or.inr h
      · rintro ((h | h) | h)
        · exact Or.inl h
        · exact Or.inr (Or.inl h)
        · exact Or.inr (Or.inr h)

/-- Effect of the inner group loop on pair membership: it adds exactly the
pairs of the non-all-missing groups of timestep t, keyed by their valid
dimensions. -/
theorem sigStep_pairMem_aux {T : ℕ} (obs : Fin G → Fin T → Fin M → FVal)
    (t : Fin T) :
    ∀ (L : List (Fin G)) (s0 : List ((Fin T × List (Fin M)) × List (Fin G)))
      (key : Fin T × List (Fin M)) (g : Fin G),
      pairMem (L.foldl (sigStepF obs t) s0) key g
        ↔ pairMem s0 key g ∨
          (g ∈ L ∧ ¬ obsRowAllNan obs g t ∧ key = (t, vList obs g t)) := by
  intro L
  induction L with
  | nil =>
    intro s0 key g
    simp [List.foldl_nil]
  | cons a L ih =>
    intro s0 key g
    rw [List.foldl_cons, ih]
    by_cases ha : obsRowAllNan obs a t
    · rw [sigStepF, if_pos ha]
      constructor
      · rintro (h | ⟨hL, hq⟩)
        · exact Or.inl h
        · exact Or.inr ⟨List.mem_cons_of_mem _ hL, hq⟩
      · rintro (h | ⟨hL, hna, hkey⟩)
        · exact Or.inl h
        · rcases List.mem_cons.mp hL with rfl | hL'
          · exact absurd ha hna
          · exact Or.inr ⟨hL', hna, hkey⟩
    · rw [sigStepF, if_neg ha, addSig_pairMem]
      constructor
      · rintro ((h | ⟨hkey, hg⟩) | ⟨hL, hq⟩)
        · exact Or.inl h
        · subst hg
          exact Or.inr ⟨List.mem_cons_self _ _, ha, hkey⟩
        · exact Or.inr ⟨List.mem_cons_of_mem _ hL, hq⟩
      · rintro (h | ⟨hL, hna, hkey⟩)
        · exact Or.inl (Or.inl h)
        · rcases List.mem_cons.mp hL with rfl | hL'
          · exact Or.inl (Or.inr ⟨hkey, rfl⟩)
          · exact Or.inr ⟨hL', hna, hkey⟩

/-- Pair membership after the inner group loop of a timestep. -/
theorem sigStep_pairMem {T : ℕ} (obs : Fin G → Fin T → Fin M → FVal)
    (t : Fin T) (s0 : List ((Fin T × List (Fin M)) × List (Fin G)))
    (key : Fin T × List (Fin M)) (g : Fin G) :
    pairMem (sigStep obs t s0) key g
      ↔ pairMem s0 key g ∨
        (¬ obsRowAllNan obs g t ∧ key = (t, vList obs g t)) := by
  rw [sigStep, sigStep_pairMem_aux]
  simp [List.mem_finRange]

/-- A cell touched by no assignment keeps its initial value. -/
theorem foldl_applyAssign_no_hit {T : ℕ} (lp : LPFun G T M)
    (obs : Fin G → Fin T → Fin M → FVal) :
    ∀ (L : List (LPAssign G T M)) (out0 : Fin G → Fin T → ℚ)
      (g : Fin G) (t : Fin T),
      (∀ a, a ∈ L → ¬ (g ∈ a.1 ∧ t ∈ a.2.1)) →
      (L.foldl (applyAssign lp obs) out0) g t = out0 g t := by
  intro L
  induction L with
  | nil => intro out0 g t _; rfl
  | cons a L ih =>
    intro out0 g t h
    rw [List.foldl_cons, ih _ g t (fun b hb => h b (List.mem_cons_of_mem _ hb))]
    simp only [applyAssign]
    rw [if_neg (h a (List.mem_cons_self _ _))]

/-- When every assignment that touches a cell writes the same value and at
least one touches it, the cell ends with that value. -/
theorem foldl_applyAssign_same {T : ℕ} (lp : LPFun G T M)
    (obs : Fin G → Fin T → Fin M → FVal) :
    ∀ (L : List (LPAssign G T M)) (out0 : Fin G → Fin T → ℚ)
      (g : Fin G) (t : Fin T) (v : ℚ),
      (∀ a, a ∈ L → (g ∈ a.1 ∧ t ∈ a.2.1) →
        lp g t a.2.2 (a.2.2.map (obs g t)) = v) →
      (∃ a, a ∈ L ∧ g ∈ a.1 ∧ t ∈ a.2.1) →
      (L.foldl (applyAssign lp obs) out0) g t = v := by
  intro L
  induction L with
  | nil =>
    rintro out0 g t v _ ⟨a, ha, _⟩
    exact absurd ha (List.not_mem_nil a)
  | cons a L ih =>
    rintro out0 g t v hval ⟨b, hb, hbg, hbt⟩
    rw [List.foldl_cons]
    by_cases hex : ∃ c, c ∈ L ∧ g ∈ c.1 ∧ t ∈ c.2.1
    · exact ih _ g t v (fun c hc => hval c (List.mem_cons_of_mem _ hc)) hex
    · have hba : b = a := by
        rcases List.mem_cons.mp hb with h | h
        · exact h
        · exact absurd ⟨b, h, hbg, hbt⟩ hex
      subst hba
      rw [foldl_applyAssign_no_hit lp obs L _ g t
        (fun c hc hhit => hex ⟨c, hc, hhit⟩)]
      simp only [applyAssign]
      rw [if_pos ⟨hbg, hbt⟩]
      exact hval b (List.mem_cons_self _ _) ⟨hbg, hbt⟩

/-- Every assignment comes from a signature bucket, the leading block, or the
times_without_nan list. -/
theorem mem_lpAssignments_elim {T : ℕ} (obs : Fin G → Fin T → Fin M → FVal)
    (a : LPAssign G T M) (ha : a ∈ lpAssignments obs) :
    (∃ p, p ∈ (lpAcc obs).sig ∧ a = (p.2, [p.1.1], p.1.2)) ∨
    (0 ≤ (lpAcc obs).lnt ∧
      a = (List.finRange G, blockTimes (lpAcc obs).lnt, List.finRange M)) ∨
    ((lpAcc obs).twn ≠ [] ∧
      a = (List.finRange G, (lpAcc obs).twn, List.finRange M)) := by
  simp only [lpAssignments] at ha
  by_cases h1 : (0 : ℤ) ≤ (lpAcc obs).lnt
  · by_cases h2 : (lpAcc obs).twn ≠ []
    · rw [if_pos h1, if_pos h2] at ha
      rcases List.mem_append.mp ha with ha' | ha'
      · rcases List.mem_append.mp ha' with hs | hb
        · rcases List.mem_map.mp hs with ⟨p, hp, hpa⟩
          exact Or.inl ⟨p, hp, hpa.symm⟩
        · exact Or.inr (Or.inl ⟨h1, List.mem_singleton.mp hb⟩)
      · exact Or.inr (Or.inr ⟨h2, List.mem_singleton.mp ha'⟩)
    · rw [if_pos h1, if_neg h2] at ha
      rcases List.mem_append.mp ha with hs | hb
      · rcases List.mem_map.mp hs with ⟨p, hp, hpa⟩
        exact Or.inl ⟨p, hp, hpa.symm⟩
      · exact Or.inr (Or.inl ⟨h1, List.mem_singleton.mp hb⟩)
  · by_cases h2 : (lpAcc obs).twn ≠ []
    · rw [if_neg h1, if_pos h2] at ha
      rcases List.mem_append.mp ha with hs | hb
      · rcases List.mem_map.mp hs with ⟨p, hp, hpa⟩
        exact Or.inl ⟨p, hp, hpa.symm⟩
      · exact Or.inr (Or.inr ⟨h2, List.mem_singleton.mp hb⟩)
    · rw [if_neg h1, if_neg h2] at ha
      rcases List.mem_map.mp ha with ⟨p, hp, hpa⟩
      exact Or.inl ⟨p, hp, hpa.symm⟩

/-- Every signature bucket contributes an assignment. -/
theorem sig_mem_lpAssignments {T : ℕ} (obs : Fin G → Fin T → Fin M → FVal)
    (p : (Fin T × List (Fin M)) × List (Fin G)) (hp : p ∈ (lpAcc obs).sig) :
    (p.2, [p.1.1], p.1.2) ∈ lpAssignments obs := by
  have hb : (p.2, [p.1.1], p.1.2)
      ∈ (lpAcc obs).sig.map (fun kv => (kv.2, [kv.1.1], kv.1.2)) :=
    List.mem_map_of_mem _ hp
  simp only [lpAssignments]
  by_cases h1 : (0 : ℤ) ≤ (lpAcc obs).lnt
  · by_cases h2 : (lpAcc obs).twn ≠ []
    · rw [if_pos h1, if_pos h2]
      exact List.mem_append_left _ (List.mem_append_left _ hb)
    · rw [if_pos h1, if_neg h2]
      exact List.mem_append_left _ hb
  · by_cases h2 : (lpAcc obs).twn ≠ []
    · rw [if_neg h1, if_pos h2]
      exact List.mem_append_left _ hb
    · rw [if_neg h1, if_neg h2]
      exact hb

/-- When the leading block is nonempty its assignment is present. -/
theorem block_mem_lpAssignments {T : ℕ} (obs : Fin G → Fin T → Fin M → FVal)
    (h1 : (0 : ℤ) ≤ (lpAcc obs).lnt) :
    (List.finRange G, blockTimes (lpAcc obs).lnt, List.finRange M)
      ∈ lpAssignments obs := by
  simp only [lpAssignments]
  by_cases h2 : (lpAcc obs).twn ≠ []
  · rw [if_pos h1, if_pos h2]
    exact List.mem_append_left _
      (List.mem_append_right _ (List.mem_singleton_self _))
  · rw [if_pos h1, if_neg h2]
    exact List.mem_append_right _ (List.mem_singleton_self _)

/-- When times_without_nan is nonempty its assignment is present. -/
theorem twn_mem_lpAssignments {T : ℕ} (obs : Fin G → Fin T → Fin M → FVal)
    (h2 : (lpAcc obs).twn ≠ []) :
    (List.finRange G, (lpAcc obs).twn, List.finRange M)
      ∈ lpAssignments obs := by
  simp only [lpAssignments]
  by_cases h1 : (0 : ℤ) ≤ (lpAcc obs).lnt
  · rw [if_pos h1, if_pos h2]
    exact List.mem_append_right _ (List.mem_singleton_self _)
  · rw [if_neg h1, if_pos h2]
    exact List.mem_append_right _ (List.mem_singleton_self _)

/-- The scanning-loop invariant holds after any number of iterations. -/
theorem accInv_holds {T : ℕ} (obs : Fin G → Fin T → Fin M → FVal) :
    ∀ k, AccInv obs k (lpAccN obs k) := by
  intro k
  induction k with
  | zero =>
    refine ⟨by rw [cpc]; rfl, ?_, ?_, ?_⟩
    · intro t
      simp [lpAccN]
    · intro t ml g h
      exact absurd h (pairMem_nil _ _)
    · intro t ht
      exact absurd ht (Nat.not_lt_zero _)
  | succ k ih =>
    obtain ⟨ih1, ih2, ih3, ih4⟩ := ih
    rw [lpAccN]
    by_cases hk : k < T
    · rw [dif_pos hk]
      set tk : Fin T := ⟨k, hk⟩ with htk
      rw [lpStep]
      by_cases hall : colAllNan obs tk
      · rw [if_pos hall]
        have hnCP : ¬ CPfx obs k := by
          intro hc
          exact (hc tk (le_refl k)).2 hall
        refine ⟨?_, ?_, ?_, ?_⟩
        · rw [cpc, if_neg (fun hc => hnCP hc.2), Nat.add_zero]
          exact ih1
        · intro t
          rw [ih2 t]
          constructor
          · rintro ⟨h1, h2, h3⟩
            exact ⟨by omega, h2, h3⟩
          · rintro ⟨h1, h2, h3⟩
            refine ⟨?_, h2, h3⟩
            rcases Nat.lt_succ_iff_lt_or_eq.mp h1 with h | h
            · exact h
            · exfalso
              have : t = tk := Fin.ext h
              rw [this] at h2
              exact h2.2 hall
        · intro t ml g h
          obtain ⟨ha, hb, hc, hd, he⟩ := ih3 t ml g h
          exact ⟨by omega, hb, hc, hd, he⟩
        · intro t ht hna hnn g hg
          rcases Nat.lt_succ_iff_lt_or_eq.mp ht with h | h
          · exact ih4 t h hna hnn g hg
          · exfalso
            have : t = tk := Fin.ext h
            rw [this] at hna
            exact hna hall
      · rw [if_neg hall]
        by_cases hno : colNoNan obs tk
        · rw [if_pos hno]
          have hclean : cleanCol obs tk := ⟨hno, hall⟩
          by_cases hcond : (lpAccN obs k).lnt = ((tk : ℕ) : ℤ) - 1
          · rw [if_pos hcond]
            have hcpk : cpc obs k = k := by
              rw [ih1] at hcond
              have : ((tk : ℕ) : ℤ) = (k : ℤ) := rfl
              omega
            have hCPk : CPfx obs k := by
              intro t ht
              rcases Nat.lt_or_ge (t : ℕ) k with h | h
              · rw [← hcpk] at h
                exact (cpfx_of_lt_cpc obs k (t : ℕ) h).2 t (le_refl _)
              · have : (t : ℕ) = k := by omega
                have ht' : t = tk := Fin.ext this
                rw [ht']
                exact hclean
            refine ⟨?_, ?_, ?_, ?_⟩
            · show (lpAccN obs k).lnt + 1 = ((cpc obs (k + 1) : ℕ) : ℤ) - 1
              rw [cpc, if_pos ⟨hk, hCPk⟩, ih1]
              push_cast
              omega
            · intro t
              show t ∈ (lpAccN obs k).twn ↔ _
              rw [ih2 t]
              constructor
              · rintro ⟨h1, h2, h3⟩
                exact ⟨by omega, h2, h3⟩
              · rintro ⟨h1, h2, h3⟩
                refine ⟨?_, h2, h3⟩
                rcases Nat.lt_succ_iff_lt_or_eq.mp h1 with h | h
                · exact h
                · exfalso
                  rw [h] at h3
                  exact h3 hCPk
            · intro t ml g h
              obtain ⟨ha, hb, hc, hd, he⟩ := ih3 t ml g h
              exact ⟨by omega, hb, hc, hd, he⟩
            · intro t ht hna hnn g hg
              rcases Nat.lt_succ_iff_lt_or_eq.mp ht with h | h
              · exact ih4 t h hna hnn g hg
              · exfalso
                have : t = tk := Fin.ext h
                rw [this] at hnn
                exact hnn hno
          · rw [if_neg hcond]
            have hcpk : cpc obs k ≠ k := by
              intro hc
              apply hcond
              rw [ih1, hc]
            have hnCP : ¬ CPfx obs k := by
              intro hc
              apply hcpk
              refine cpc_eq_self obs k (fun i hi => ⟨by omega, ?_⟩)
              exact cpfx_mono obs k i (by omega) hc
            refine ⟨?_, ?_, ?_, ?_⟩
            · show (lpAccN obs k).lnt = _
              rw [cpc, if_neg (fun hc => hnCP hc.2), Nat.add_zero]
              exact ih1
            · intro t
              show t ∈ (lpAccN obs k).twn ++ [tk] ↔ _
              rw [List.mem_append, List.mem_singleton, ih2 t]
              constructor
              · rintro (⟨h1, h2, h3⟩ | h)
                · exact ⟨by omega, h2, h3⟩
                · subst h
                  exact ⟨Nat.lt_succ_self k, hclean, hnCP⟩
              · rintro ⟨h1, h2, h3⟩
                rcases Nat.lt_succ_iff_lt_or_eq.mp h1 with h | h
                · exact Or.inl ⟨h, h2, h3⟩
                · exact Or.inr (Fin.ext h)
            · intro t ml g h
              obtain ⟨ha, hb, hc, hd, he⟩ := ih3 t ml g h
              exact ⟨by omega, hb, hc, hd, he⟩
            · intro t ht hna hnn g hg
              rcases Nat.lt_succ_iff_lt_or_eq.mp ht with h | h
              · exact ih4 t h hna hnn g hg
              · exfalso
                have : t = tk := Fin.ext h
                rw [this] at hnn
                exact hnn hno
        · rw [if_neg hno]
          have hnCP : ¬ CPfx obs k := by
            intro hc
            exact hno (hc tk (le_refl k)).1
          refine ⟨?_, ?_, ?_, ?_⟩
          · show (lpAccN obs k).lnt = _
            rw [cpc, if_neg (fun hc => hnCP hc.2), Nat.add_zero]
            exact ih1
          · intro t
            show t ∈ (lpAccN obs k).twn ↔ _
            rw [ih2 t]
            constructor
            · rintro ⟨h1, h2, h3⟩
              exact ⟨by omega, h2, h3⟩
            · rintro ⟨h1, h2, h3⟩
              refine ⟨?_, h2, h3⟩
              rcases Nat.lt_succ_iff_lt_or_eq.mp h1 with h | h
              · exact h
              · exfalso
                have : t = tk := Fin.ext h
                rw [this] at h2
                exact hno h2.1
          · intro t ml g h
            show _
            rw [show ({ lpAccN obs k with
                sig := sigStep obs tk (lpAccN obs k).sig } : LPAcc G T M).sig
              = sigStep obs tk (lpAccN obs k).sig from rfl] at h
            rcases (sigStep_pairMem obs tk _ _ _).mp h with h' | ⟨hna, hkey⟩
            · obtain ⟨ha, hb, hc, hd, he⟩ := ih3 t ml g h'
              exact ⟨by omega, hb, hc, hd, he⟩
            · have ht : t = tk := congrArg Prod.fst hkey
              have hml : ml = vList obs g tk := congrArg Prod.snd hkey
              subst ht
              exact ⟨Nat.lt_succ_self k, hall, hno, hna, hml.symm⟩
          · intro t ht hna hnn g hg
            show pairMem (sigStep obs tk (lpAccN obs k).sig) _ _
            rw [sigStep_pairMem]
            rcases Nat.lt_succ_iff_lt_or_eq.mp ht with h | h
            · exact Or.inl (ih4 t h hna hnn g hg)
            · have : t = tk := Fin.ext h
              subst this
              exact Or.inr ⟨hg, rfl⟩
    · rw [dif_neg hk]
      have hTk : T ≤ k := Nat.le_of_not_lt hk
      refine ⟨?_, ?_, ?_, ?_⟩
      · rw [cpc, if_neg (fun hc => hk hc.1), Nat.add_zero]
        exact ih1
      · intro t
        rw [ih2 t]
        have := t.isLt
        constructor
        · rintro ⟨h1, h2, h3⟩
          exact ⟨by omega, h2, h3⟩
        · rintro ⟨h1, h2, h3⟩
          exact ⟨by omega, h2, h3⟩
      · intro t ml g h
        obtain ⟨ha, hb, hc, hd, he⟩ := ih3 t ml g h
        exact ⟨by omega, hb, hc, hd, he⟩
      · intro t ht hna hnn g hg
        have := t.isLt
        exact ih4 t (by omega) hna hnn g hg

/-- No group row of a clean column is all-missing. -/
theorem cleanCol_not_rowAllNan {T : ℕ} (obs : Fin G → Fin T → Fin M → FVal)
    (g : Fin G) (t : Fin T) (hclean : cleanCol obs t) :
    ¬ obsRowAllNan obs g t := by
  intro hall
  apply hclean.2
  intro g' mm
  have h1 := hall mm
  have h2 := hclean.1 g mm
  rw [h1] at h2
  exact absurd h2 (by simp)

/-- A cell whose row is all-missing is touched by no assignment. -/
theorem lpAssignments_no_hit_of_allNan {T : ℕ}
    (obs : Fin G → Fin T → Fin M → FVal) (g : Fin G) (t : Fin T)
    (hall : obsRowAllNan obs g t) (a : LPAssign G T M)
    (ha : a ∈ lpAssignments obs) : ¬ (g ∈ a.1 ∧ t ∈ a.2.1) := by
  rintro ⟨hga, hta⟩
  obtain ⟨inv1, inv2, inv3, inv4⟩ := accInv_holds obs T
  rcases mem_lpAssignments_elim obs a ha with ⟨p, hp, hpa⟩ | ⟨h1, hpa⟩ | ⟨h2, hpa⟩
  · subst hpa
    have htp : p.1.1 = t := (List.mem_singleton.mp hta).symm
    obtain ⟨_, _, _, hna, _⟩ := inv3 t p.1.2 g ⟨p, hp, by rw [← htp], hga⟩
    exact hna hall
  · subst hpa
    have hle : ((t : ℕ) : ℤ) ≤ (lpAcc obs).lnt := (mem_blockTimes _ t).mp hta
    rw [lpAcc, inv1] at hle
    have hlt : (t : ℕ) < cpc obs T := by omega
    have hclean := (cpfx_of_lt_cpc obs T (t : ℕ) hlt).2 t (le_refl _)
    exact cleanCol_not_rowAllNan obs g t hclean hall
  · subst hpa
    obtain ⟨_, hclean, _⟩ := (inv2 t).mp hta
    exact cleanCol_not_rowAllNan obs g t hclean hall

/-- Every assignment that touches a cell writes the family value of the
valid dimensions of that cell. -/
theorem lpAssignments_hit_value {T : ℕ} (lp : LPFun G T M)
    (obs : Fin G → Fin T → Fin M → FVal) (g : Fin G) (t : Fin T)
    (a : LPAssign G T M) (ha : a ∈ lpAssignments obs)
    (hga : g ∈ a.1) (hta : t ∈ a.2.1) :
    lp g t a.2.2 (a.2.2.map (obs g t))
      = lp g t (vList obs g t) ((vList obs g t).map (obs g t)) := by
  obtain ⟨inv1, inv2, inv3, inv4⟩ := accInv_holds obs T
  rcases mem_lpAssignments_elim obs a ha with ⟨p, hp, hpa⟩ | ⟨h1, hpa⟩ | ⟨h2, hpa⟩
  · subst hpa
    have htp : p.1.1 = t := (List.mem_singleton.mp hta).symm
    obtain ⟨_, _, _, _, he⟩ := inv3 t p.1.2 g ⟨p, hp, by rw [← htp], hga⟩
    rw [he]
  · subst hpa
    have hle : ((t : ℕ) : ℤ) ≤ (lpAcc obs).lnt := (mem_blockTimes _ t).mp hta
    rw [lpAcc, inv1] at hle
    have hlt : (t : ℕ) < cpc obs T := by omega
    have hclean := (cpfx_of_lt_cpc obs T (t : ℕ) hlt).2 t (le_refl _)
    rw [vList_eq_finRange obs g t (hclean.1 g)]
  · subst hpa
    obtain ⟨_, hclean, _⟩ := (inv2 t).mp hta
    rw [vList_eq_finRange obs g t (hclean.1 g)]

/-- Every cell with at least one valid dimension is touched by some
assignment. -/
theorem lpAssignments_hit_exists {T : ℕ}
    (obs : Fin G → Fin T → Fin M → FVal) (g : Fin G) (t : Fin T)
    (hall : ¬ obsRowAllNan obs g t) :
    ∃ a, a ∈ lpAssignments obs ∧ g ∈ a.1 ∧ t ∈ a.2.1 := by
  obtain ⟨inv1, inv2, inv3, inv4⟩ := accInv_holds obs T
  by_cases hcall : colAllNan obs t
  · exact absurd (hcall g) hall
  by_cases hcno : colNoNan obs t
  · have hclean : cleanCol obs t := ⟨hcno, hcall⟩
    by_cases hCP : CPfx obs (t : ℕ)
    · have hlt : (t : ℕ) < cpc obs T :=
        lt_cpc_of_cpfx obs T (t : ℕ) t.isLt t.isLt hCP
      have h1 : (0 : ℤ) ≤ (lpAcc obs).lnt := by
        rw [lpAcc, inv1]
        omega
      refine ⟨_, block_mem_lpAssignments obs h1, List.mem_finRange g, ?_⟩
      rw [mem_blockTimes, lpAcc, inv1]
      omega
    · have htw : t ∈ (lpAcc obs).twn := (inv2 t).mpr ⟨t.isLt, hclean, hCP⟩
      have h2 : (lpAcc obs).twn ≠ [] := by
        intro he
        rw [lpAcc] at he htw
        rw [he] at htw
        exact List.not_mem_nil t htw
      exact ⟨_, twn_mem_lpAssignments obs h2, List.mem_finRange g, htw⟩
  · obtain ⟨p, hp, hk, hg⟩ := inv4 t t.isLt hcall hcno g hall
    refine ⟨(p.2, [p.1.1], p.1.2), sig_mem_lpAssignments obs p hp, hg, ?_⟩
    have : p.1.1 = t := congrArg Prod.fst hk
    rw [this]
    exact List.mem_singleton_self t

/-- The bucketed log_prob computes the pointwise contract at every cell. -/
theorem logProbTK_eq_pointwise {T : ℕ} (lp : LPFun G T M)
    (obs : Fin G → Fin T → Fin M → FVal) (g : Fin G) (t : Fin T) :
    logProbTK lp obs g t = logProbPointwise lp obs g t := by
  rw [logProbTK, logProbPointwise]
  by_cases hall : obsRowAllNan obs g t
  · rw [if_pos hall]
    exact foldl_applyAssign_no_hit lp obs _ _ g t
      (fun a ha => lpAssignments_no_hit_of_allNan obs g t hall a ha)
  · rw [if_neg hall]
    exact foldl_applyAssign_same lp obs _ _ g t _
      (fun a ha hhit => lpAssignments_hit_value lp obs g t a ha hhit.1 hhit.2)
      (lpAssignments_hit_exists obs g t hall)

/-- C1: log_prob fills each (group, time) cell with the family value at
exactly the valid dimensions of that cell, whichever bucketing path
(contiguous block, nan-free time list, or per-signature group) computed it;
cells whose dimensions are all missing are exactly zero; and two observation
tensors that agree on a cell's valid-dimension set and its valid values get
identical log-probabilities at that cell, however their missingness patterns
differ elsewhere. -/
theorem logProb_spec {T : ℕ} (lp : LPFun G T M)
    (obs obs2 : Fin G → Fin T → Fin M → FVal) (g : Fin G) (t : Fin T) :
    logProbTK lp obs g t = logProbPointwise lp obs g t ∧
    (obsRowAllNan obs g t → logProbTK lp obs g t = 0) ∧
    ((vList obs g t = vList obs2 g t ∧
        ∀ mm, mm ∈ vList obs g t → obs g t mm = obs2 g t mm) →
      logProbTK lp obs g t = logProbTK lp obs2 g t) := by
  refine ⟨logProbTK_eq_pointwise lp obs g t, ?_, ?_⟩
  · intro hall
    rw [logProbTK_eq_pointwise, logProbPointwise, if_pos hall]
  · rintro ⟨hvl, hvals⟩
    rw [logProbTK_eq_pointwise, logProbTK_eq_pointwise,
      logProbPointwise, logProbPointwise]
    by_cases hall : obsRowAllNan obs g t
    · have h2 : obsRowAllNan obs2 g t := by
        rw [← vList_eq_nil_iff] at hall ⊢
        rw [← hvl]
        exact hall
      rw [if_pos hall, if_pos h2]
    · have h2 : ¬ obsRowAllNan obs2 g t := by
        rw [← vList_eq_nil_iff] at hall ⊢
        rw [← hvl]
        exact hall
      rw [if_neg hall, if_neg h2, ← hvl]
      congr 1
      exact List.map_congr_left hvals

/-- Witness for logProb_spec: an all-missing row gets exactly zero, and the
cell of group 0 gets the same value whether its timestep is nan-free (block
path) or shares the batch with an all-missing group (signature path). -/
theorem logProb_spec_witness :
    (obsRowAllNan wobsB 1 0 ∧ logProbTK wlp wobsB 1 0 = 0) ∧
    ((vList wobsA 0 0 = vList wobsB 0 0 ∧
        ∀ mm, mm ∈ vList wobsA 0 0 → wobsA 0 0 mm = wobsB 0 0 mm) ∧
      logProbTK wlp wobsA 0 0 = logProbTK wlp wobsB 0 0) := by
  constructor
  · exact ⟨by decide, (logProb_spec wlp wobsB wobsB 1 0).2.1 (by decide)⟩
  · exact ⟨⟨by decide, by decide⟩,
      (logProb_spec wlp wobsA wobsB 0 0).2.2 ⟨by decide, by decide⟩⟩

end TorchKalman
